import Mathlib

/-!
Verification of the core rename algorithm of `src/rename_to_sequential.py`
(`ImageRenamer`): renaming image files of one directory to zero-padded
sequential numeric filenames.

Modelling conventions:
* All paths are represented by their basename relative to the directory being
  processed (`current_dir` is constant throughout one batch, and
  `os.path.join(current_dir, name)` is injective in `name`, so the common
  directory prefix is dropped).
* The filesystem content of one directory is a duplicate-free list of
  filenames (`disk`); `os.path.exists` is list membership, `os.rename a b`
  removes `a` and adds `b`.
* The executor additionally returns the log of performed `os.rename` calls,
  in order, so that "no rename was issued" claims are about the log.
* Python `int` values are ℕ in the core executor (the validator admits only
  nonnegative `initial_number` and positive `step` before it runs) and ℤ in
  the validation layer, where the range checks live.
* Helpers imported from `utils.py` / `validator.py` are not part of the
  sources given under `src/`; each of them is modelled from the spec and its
  doc comment says so.
-/

/-- Value of a decimal digit character (`'0'` ↦ 0, …, `'9'` ↦ 9). -/
def charVal (c : Char) : Nat := c.toNat - 48

/-- The decimal digit character for `n < 10`. -/
def digitCh (n : Nat) : Char :=
  match n with
  | 0 => '0' | 1 => '1' | 2 => '2' | 3 => '3' | 4 => '4'
  | 5 => '5' | 6 => '6' | 7 => '7' | 8 => '8' | _ => '9'

/-- Fuelled decimal printer (most significant digit first). -/
def toDecAux : Nat → Nat → List Char
  | 0, _ => []
  | fuel + 1, n => if n < 10 then [digitCh n] else toDecAux fuel (n / 10) ++ [digitCh (n % 10)]

/-- Decimal representation of a natural number, as Python `str(n)` / `repr`. -/
def toDec (n : Nat) : List Char := toDecAux (n + 1) n

/-- Numeric value of a digit string (leading zeros ignored), as Python `int(s)`. -/
def ofDecL (cs : List Char) : Nat := cs.foldl (fun a c => 10 * a + charVal c) 0

/-- Zero-padded decimal of `j` to width `d`: Python `f'{j:0{d}}'` for `j ≥ 0`.
Wider-than-`d` numbers are printed in full, not truncated. -/
def padC (d j : Nat) : List Char := List.replicate (d - (toDec j).length) '0' ++ toDec j

/-- The destination filename built at `src/rename_to_sequential.py:136-137`:
`f'{j:0{digit}}{extension}'` (the constant `current_dir` prefix of
`os.path.join` is dropped, see module conventions). -/
def targetName (j d : Nat) (ext : String) : String := String.mk (padC d j) ++ ext

/-- Core of `os.path.splitext` on a basename: split off the extension at the
last `'.'`, except that a name whose characters before its last dot are all
dots (e.g. `'.jpg'`, `'..'`) has no extension. -/
def splitextCore (cs : List Char) : List Char × List Char :=
  let ext' := cs.reverse.takeWhile (fun c => c != '.')
  match cs.reverse.dropWhile (fun c => c != '.') with
  | [] => (cs, [])
  | _ :: before =>
    if before.any (fun c => c != '.') then (before.reverse, '.' :: ext'.reverse)
    else (cs, [])

/-- `os.path.splitext` (on basenames, which hold no path separator). -/
def splitext (s : String) : String × String :=
  (String.mk (splitextCore s.data).1, String.mk (splitextCore s.data).2)

/-- Shape of every extension produced by `splitext`: empty, or a dot followed
by dot-free characters. -/
def ExtFormL (e : List Char) : Prop := e = [] ∨ ∃ t, e = '.' :: t ∧ '.' ∉ t

/-- Python `s.endswith(suffix)`. -/
def endswith (s suffix : String) : Bool := suffix.data.isSuffixOf s.data

/-- Python `s.endswith(tuple_of_suffixes)`, used by the extension filter. -/
def endswithAny (exts : List String) (s : String) : Bool := exts.any (fun e => endswith s e)

/-- Modelled from the spec: one piece of the key built by `natural_keys`
(from the missing `utils.py`): a run of non-digits compared as text, or a run
of digits compared by numeric value. -/
inductive Piece
  | text (s : String)
  | num (n : Nat)
deriving DecidableEq, Repr

/-- Python string comparison: lexicographic on code points, a strict prefix
being smaller. -/
def charListLtB : List Char → List Char → Bool
  | [], [] => false
  | [], _ :: _ => true
  | _ :: _, [] => false
  | a :: as, b :: bs => if a < b then true else if b < a then false else charListLtB as bs

/-- Strict comparison of key pieces. Text and number pieces never meet at the
same position of two keys produced by `natural_keys` (pieces alternate,
starting with text), so the cross cases are arbitrary. -/
def pieceLtB : Piece → Piece → Bool
  | .text a, .text b => charListLtB a.data b.data
  | .num a, .num b => decide (a < b)
  | .text _, .num _ => true
  | .num _, .text _ => false

/-- Lexicographic comparison of keys, as Python compares the key lists
(a strict prefix is smaller). -/
def keyLeB : List Piece → List Piece → Bool
  | [], _ => true
  | _ :: _, [] => false
  | a :: as, b :: bs => if pieceLtB a b then true else if pieceLtB b a then false else keyLeB as bs

/-- Modelled from the spec: `natural_keys` (missing `utils.py`) splits a
string into alternating runs of non-digits and digits, the digit runs taken
by numeric value — the split of `re.split(r'(\d+)', s)`, which always starts
with a (possibly empty) text piece and ends with a text piece whenever the
string ends in a digit run. Fuelled so that it computes by kernel reduction. -/
def natSplitF : Nat → List Char → List Piece
  | _, [] => [.text ""]
  | 0, cs => [.text (String.mk cs)]
  | fuel + 1, cs =>
    let t := cs.takeWhile (fun c => !c.isDigit)
    let r := cs.dropWhile (fun c => !c.isDigit)
    if r.isEmpty then [.text (String.mk t)]
    else
      .text (String.mk t) :: .num (ofDecL (r.takeWhile Char.isDigit)) ::
        natSplitF fuel (r.dropWhile Char.isDigit)

/-- The natural-sort key of a filename. -/
def natKey (s : String) : List Piece := natSplitF s.data.length s.data

/-- Natural-sort ordering on filenames: comparison of `natKey`s. -/
def natLE (a b : String) : Prop := keyLeB (natKey a) (natKey b) = true

instance : DecidableRel natLE := fun a b => instDecidableEqBool (keyLeB (natKey a) (natKey b)) true

/-- Python `sorted(files, key=natural_keys)`: a stable sort by `natKey`
(insertion sort is stable and places an element before the first strictly
greater one, as Python's stable sort does). -/
def sortNatural (l : List String) : List String := List.insertionSort natLE l

/-- The directory batch built at `src/rename_to_sequential.py:121-125`:
directory entries sorted naturally, keeping those that end with one of the
configured extensions. -/
def batchOf (exts : List String) (files : List String) : List String :=
  (sortNatural files).filter (fun f => endswithAny exts f)

/-- Candidate temporary names, pairwise distinct (their lengths differ). -/
def tmpCand (k : Nat) (ext : String) : String :=
  String.mk ('t' :: 'm' :: 'p' :: (List.replicate k 'x' ++ ext.data))

/-- Modelled from the spec: `gen_random_filename` (missing `utils.py`)
produces a name carrying the given extension that is not currently present in
the directory, probing existence against the live listing; generation loops
until an unused name is found. The first fresh candidate is taken; among
`disk.length + 1` distinct candidates one is always fresh. -/
def gen_random_filename (disk : List String) (ext : String) : String :=
  tmpCand (((List.range (disk.length + 1)).filter
    (fun k => !(disk.contains (tmpCand k ext)))).headD 0) ext

/-- Names of the shape produced by the temporary-name generator (they start
with `'t'`, while every computed destination starts with a decimal digit). -/
def IsTmp (s : String) : Prop := s.data.head? = some 't'

/-- Log of performed `os.rename(src, dst)` calls, in order. -/
abbrev RenLog := List (String × String)

/-- A directory state paired with the rename log that produced it. -/
abbrev FsState := List String × RenLog

/-- Prefix further rename-log entries onto the outcome of a later run. -/
def prependLog (l : RenLog) : Except FsState FsState → Except FsState FsState
  | .ok (d, lg) => .ok (d, l ++ lg)
  | .error (d, lg) => .error (d, l ++ lg)

/-- The configuration the core executor reads (validated values, hence ℕ). -/
structure RenCfg where
  initial_number : Nat
  step : Nat
  digit : Nat
  extensions : List String

/-- The rename loop of `src/rename_to_sequential.py:134-158`, from position
`p` on, with `fuel = filenames.length - p`.  `filenames` is the live
in-memory list (mutated at line 154 while being iterated, which the generator
`enumerate_with_step` observes, so the entry for position `p` is read at step
`p`).  On the inconsistency at lines 148-152 the whole run aborts (`.error`)
carrying the directory state at the start of that iteration.  The rename log
records each performed `os.rename`. -/
def runBatchGo (cfg : RenCfg) : Nat → List String → List String → Nat → Except FsState FsState
  | 0, _, disk, _ => .ok (disk, [])
  | fuel + 1, fns, disk, p =>
    match fns.get? p with
    | none => .ok (disk, [])
    | some src =>
      let j := cfg.initial_number + p * cfg.step
      let ext := (splitext src).2
      let dst := targetName j cfg.digit ext
      if src = dst then
        runBatchGo cfg fuel fns disk (p + 1)
      else if disk.contains dst then
        let tmp := gen_random_filename disk ext
        match fns.findIdx? (fun x => x == dst) with
        | none => .error (disk, [])
        | some k =>
          prependLog [(dst, tmp), (src, dst)]
            (runBatchGo cfg fuel (fns.set k tmp) (dst :: ((tmp :: disk.erase dst).erase src)) (p + 1))
      else
        prependLog [(src, dst)] (runBatchGo cfg fuel fns (dst :: disk.erase src) (p + 1))

/-- One whole directory batch, starting at position 0. -/
def runBatch (cfg : RenCfg) (fns disk : List String) : Except FsState FsState :=
  runBatchGo cfg fns.length fns disk 0

/-- Processing of one directory (`src/rename_to_sequential.py:120-158`):
build the batch; an empty batch is skipped, otherwise the rename loop runs
with the directory listing as both the in-memory list and the disk. -/
def runDir (cfg : RenCfg) (files : List String) : Except FsState FsState :=
  let batch := batchOf cfg.extensions files
  if batch.isEmpty then .ok (files, []) else runBatch cfg batch files

/-- The `os.walk` loop of `rename` (`src/rename_to_sequential.py:115-163`):
directories processed strictly in order; the `return` at line 152 aborts the
whole run, leaving every later directory untouched (the `.error` carries the
final filesystem: processed directories, the aborted one as it was left, and
the remaining ones unchanged). -/
def walkRun (cfg : RenCfg) : List (String × List String) →
    Except (List (String × List String)) (List (String × List String))
  | [] => .ok []
  | (d, files) :: rest =>
    match runDir cfg files with
    | .error (disk', _) => .error ((d, disk') :: rest)
    | .ok (disk', _) =>
      match walkRun cfg rest with
      | .error out => .error ((d, disk') :: out)
      | .ok out => .ok ((d, disk') :: out)

/-- Modelled from the spec: `enumerate_with_step` (missing `utils.py`) pairs
each element with `start`, `start + step`, `start + 2·step`, … in order —
"targetIndex is an integer derived from initialNumber + (position × step)". -/
def enumerate_with_step : List α → Nat → Nat → List (Nat × α)
  | [], _, _ => []
  | x :: xs, start, step => (start, x) :: enumerate_with_step xs (start + step) step

/-- The configuration object as constructed by `ImageRenamer.__init__`
(dynamically typed in Python, hence ℤ for the numeric fields). -/
structure ImageRenamer where
  target_dir : String
  digit : Int
  extensions : List String
  initial_number : Int
  step : Int
  yes : Bool

/-- Modelled from the spec: `is_dir` (missing `validator.py`) — the target
directory "must exist and be a directory"; the environment's directories are
passed explicitly. -/
def is_dir (dirs : List String) (d : String) : Bool := dirs.contains d

/-- Modelled from the spec: `is_in_range` (missing `validator.py`) — "digit
width in [3,9]", both bounds inclusive (`digit=2` and `digit=10` fail). -/
def is_in_range (v lo hi : Int) : Bool := decide (lo ≤ v ∧ v ≤ hi)

/-- Modelled from the spec: `is_positive_number` (missing `validator.py`). -/
def is_positive_number (v : Int) : Bool := decide (0 < v)

/-- Modelled from the spec: `is_extension` (missing `validator.py`) —
extensions are "non-empty and each starts with a dot after normalization". -/
def is_extension (e : String) : Bool :=
  e.data.head? == some '.' && decide (2 ≤ e.data.length)

/-- Modelled from the spec: `append_prefix(extensions, ".")` (missing
`utils.py`) — extensions are "normalized to have a leading dot". -/
def normalizeExtensions (exts : List String) : List String :=
  exts.map (fun e => if e.data.head? == some '.' then e else String.mk ('.' :: e.data))

/-- Error message reported for an invalid target directory. -/
def dirErr : String := "You must type a valid directory for TARGET DIRECTORY."

/-- Error message reported for an out-of-range digit. -/
def digitErr : String := "You must type a number for DIGIT. [Min: 3, Max: 9]"

/-- Error message reported for an invalid extension. -/
def extErr : String := "You must type at least one EXTENSION."

/-- Error message reported for a negative initial number. -/
def initialErr : String := "You must type a ZERO or positive number for INITIAL NUMBER."

/-- Error message reported for a non-positive step. -/
def stepErr : String := "You must type a positive number for STEP."

/-- `ImageRenamer._input_is_valid` (`src/rename_to_sequential.py:43-90`):
every check runs and logs its own error; the collected error messages are
returned (the Python function returns the flag `is_valid`, which is true iff
this list is empty — no check short-circuits the others).  The `yes` flag
check (`is_bool`) never fails in the typed model and contributes no message. -/
def validationErrors (r : ImageRenamer) (dirs : List String) : List String :=
  (if is_dir dirs r.target_dir then [] else [dirErr]) ++
  (if is_in_range r.digit 3 9 then [] else [digitErr]) ++
  ((normalizeExtensions r.extensions).filter (fun e => !(is_extension e))).map (fun _ => extErr) ++
  (if r.initial_number == 0 || is_positive_number r.initial_number then [] else [initialErr]) ++
  (if is_positive_number r.step then [] else [stepErr])

/-- The validated configuration handed to the core loop (the validator has
ensured `initial_number ≥ 0` and `step > 0`; `__init__` normalized the
extensions). -/
def toCore (r : ImageRenamer) : RenCfg :=
  ⟨r.initial_number.toNat, r.step.toNat, r.digit.toNat, normalizeExtensions r.extensions⟩

/-- `ImageRenamer.rename` (`src/rename_to_sequential.py:92-165`): validation
first — on failure the run returns with the filesystem untouched; then the
confirmation gate (`ask()` modelled by `confirm`, bypassed by `yes`); then
the walk.  Returns the final filesystem (also on an aborted walk). -/
def rename (r : ImageRenamer) (dirs : List String) (fs : List (String × List String))
    (confirm : Bool) : List (String × List String) :=
  if (validationErrors r dirs).isEmpty then
    if r.yes || confirm then
      match walkRun (toCore r) fs with
      | .ok out => out
      | .error out => out
    else fs
  else fs

/-! ### Decimal representation lemmas -/

theorem charVal_digitCh (n : Nat) (h : n < 10) : charVal (digitCh n) = n := by
  interval_cases n <;> rfl

theorem digitCh_isDigit (n : Nat) : (digitCh n).isDigit = true := by
  unfold digitCh; split <;> rfl

theorem ofDecL_concat (xs : List Char) (c : Char) :
    ofDecL (xs ++ [c]) = 10 * ofDecL xs + charVal c := by
  simp [ofDecL, List.foldl_append]

theorem toDecAux_spec (fuel : Nat) : ∀ n, n < fuel →
    toDecAux fuel n ≠ [] ∧ (∀ c ∈ toDecAux fuel n, c.isDigit = true) ∧
      ofDecL (toDecAux fuel n) = n := by
  induction fuel with
  | zero => intro n h; omega
  | succ fuel ih =>
    intro n h
    by_cases h10 : n < 10
    · refine ⟨by simp [toDecAux, h10], ?_, ?_⟩
      · simp only [toDecAux, if_pos h10]
        intro c hc
        simp at hc
        subst hc
        exact digitCh_isDigit n
      · simp only [toDecAux, if_pos h10, ofDecL, List.foldl]
        simpa using charVal_digitCh n h10
    · have hdiv : n / 10 < fuel := by
        have : n / 10 < n := Nat.div_lt_self (by omega) (by omega)
        omega
      obtain ⟨hne, hdig, hval⟩ := ih (n / 10) hdiv
      refine ⟨by simp [toDecAux, h10], ?_, ?_⟩
      · simp only [toDecAux, if_neg h10]
        intro c hc
        rcases List.mem_append.mp hc with hc | hc
        · exact hdig c hc
        · simp at hc; subst hc; exact digitCh_isDigit _
      · simp only [toDecAux, if_neg h10]
        rw [ofDecL_concat, hval, charVal_digitCh _ (Nat.mod_lt _ (by omega))]
        omega

theorem toDec_ne_nil (n : Nat) : toDec n ≠ [] := (toDecAux_spec (n + 1) n (by omega)).1

theorem toDec_digits (n : Nat) : ∀ c ∈ toDec n, c.isDigit = true :=
  (toDecAux_spec (n + 1) n (by omega)).2.1

theorem ofDecL_toDec (n : Nat) : ofDecL (toDec n) = n :=
  (toDecAux_spec (n + 1) n (by omega)).2.2

theorem ofDecL_replicate_zero (z : Nat) (cs : List Char) :
    ofDecL (List.replicate z '0' ++ cs) = ofDecL cs := by
  induction z with
  | zero => rfl
  | succ z ih =>
    rw [List.replicate_succ, List.cons_append]
    simpa [ofDecL, List.foldl_cons] using ih

theorem padC_ne_nil (d j : Nat) : padC d j ≠ [] := by
  intro h
  exact toDec_ne_nil j (List.append_eq_nil.mp h).2

theorem padC_digits (d j : Nat) : ∀ c ∈ padC d j, c.isDigit = true := by
  intro c hc
  rcases List.mem_append.mp hc with hc | hc
  · rw [List.eq_of_mem_replicate hc]; rfl
  · exact toDec_digits j c hc

theorem ofDecL_padC (d j : Nat) : ofDecL (padC d j) = j := by
  rw [padC, ofDecL_replicate_zero, ofDecL_toDec]

/-! ### takeWhile / dropWhile over an all-satisfying prefix -/

theorem takeWhile_append_all {α : Type} (p : α → Bool) (l₁ l₂ : List α)
    (h : ∀ c ∈ l₁, p c = true) : (l₁ ++ l₂).takeWhile p = l₁ ++ l₂.takeWhile p := by
  induction l₁ with
  | nil => rfl
  | cons a l ih =>
    have ha : p a = true := h a (List.mem_cons_self a l)
    simp only [List.cons_append, List.takeWhile_cons, ha, if_true]
    rw [ih (fun c hc => h c (List.mem_cons_of_mem a hc))]

theorem dropWhile_append_all {α : Type} (p : α → Bool) (l₁ l₂ : List α)
    (h : ∀ c ∈ l₁, p c = true) : (l₁ ++ l₂).dropWhile p = l₂.dropWhile p := by
  induction l₁ with
  | nil => rfl
  | cons a l ih =>
    have ha : p a = true := h a (List.mem_cons_self a l)
    simp only [List.cons_append, List.dropWhile_cons, ha, if_true]
    exact ih (fun c hc => h c (List.mem_cons_of_mem a hc))

/-! ### Structure of computed destination names -/

theorem targetName_data (j d : Nat) (e : String) :
    (targetName j d e).data = padC d j ++ e.data := by
  simp [targetName, String.data_append]

theorem isDigit_ne_dot {c : Char} (h : c.isDigit = true) : (c != '.') = true := by
  by_contra h2
  simp only [bne_iff_ne, ne_eq, not_not] at h2
  subst h2
  simp at h

theorem extForm_takeWhile_isDigit {e : List Char} (h : ExtFormL e) :
    e.takeWhile Char.isDigit = [] := by
  rcases h with h | ⟨t, rfl, _⟩
  · simp [h]
  · simp [List.takeWhile_cons]

theorem extForm_dropWhile_isDigit {e : List Char} (h : ExtFormL e) :
    e.dropWhile Char.isDigit = e := by
  rcases h with h | ⟨t, rfl, _⟩
  · simp [h]
  · simp [List.dropWhile_cons]

theorem targetName_takeWhile (j d : Nat) (e : String) (h : ExtFormL e.data) :
    (targetName j d e).data.takeWhile Char.isDigit = padC d j := by
  rw [targetName_data, takeWhile_append_all Char.isDigit _ _ (padC_digits d j),
    extForm_takeWhile_isDigit h, List.append_nil]

theorem targetName_inj {j₁ j₂ d : Nat} {e₁ e₂ : String}
    (h₁ : ExtFormL e₁.data) (h₂ : ExtFormL e₂.data)
    (heq : targetName j₁ d e₁ = targetName j₂ d e₂) : j₁ = j₂ ∧ e₁ = e₂ := by
  have hdata : (targetName j₁ d e₁).data = (targetName j₂ d e₂).data := by rw [heq]
  have hpad : padC d j₁ = padC d j₂ := by
    rw [← targetName_takeWhile j₁ d e₁ h₁, ← targetName_takeWhile j₂ d e₂ h₂, hdata]
  have hj : j₁ = j₂ := by
    rw [← ofDecL_padC d j₁, ← ofDecL_padC d j₂, hpad]
  refine ⟨hj, ?_⟩
  have := hdata
  rw [targetName_data, targetName_data, hpad] at this
  have he : e₁.data = e₂.data := List.append_cancel_left this
  cases e₁; cases e₂; exact congrArg String.mk he

theorem not_isTmp_targetName (j d : Nat) (e : String) : ¬ IsTmp (targetName j d e) := by
  intro h
  unfold IsTmp at h
  rw [targetName_data] at h
  obtain ⟨c, cs, hcons⟩ := List.exists_cons_of_ne_nil (padC_ne_nil d j)
  rw [hcons] at h
  simp only [List.cons_append, List.head?_cons, Option.some.injEq] at h
  have hc : c.isDigit = true := padC_digits d j c (by rw [hcons]; exact List.mem_cons_self c cs)
  rw [h] at hc
  simp at hc

/-! ### splitext lemmas -/

theorem dropWhile_eq_nil_of_all {α : Type} (p : α → Bool) (l : List α)
    (h : ∀ c ∈ l, p c = true) : l.dropWhile p = [] := by
  have := dropWhile_append_all p l [] h
  simpa using this

theorem takeWhile_eq_self_of_all {α : Type} (p : α → Bool) (l : List α)
    (h : ∀ c ∈ l, p c = true) : l.takeWhile p = l := by
  have := takeWhile_append_all p l [] h
  simpa using this

theorem splitextCore_prefix_append (pre e : List Char) (hne : pre ≠ [])
    (hpre : ∀ c ∈ pre, (c != '.') = true) (he : ExtFormL e) :
    splitextCore (pre ++ e) = (pre, e) := by
  have hprer : ∀ c ∈ pre.reverse, (c != '.') = true := by
    intro c hc; exact hpre c (List.mem_reverse.mp hc)
  rcases he with rfl | ⟨t, het, ht⟩
  case inl =>
    have hrev : (pre ++ ([] : List Char)).reverse = pre.reverse := by simp
    have hdrop : (pre ++ ([] : List Char)).reverse.dropWhile (fun c => c != '.') = [] := by
      rw [hrev]; exact dropWhile_eq_nil_of_all _ _ hprer
    simp only [splitextCore, hdrop]
    simp
  case inr =>
    subst het
    have htr : ∀ c ∈ t.reverse, (c != '.') = true := by
      intro c hc
      have : c ∈ t := List.mem_reverse.mp hc
      have : c ≠ '.' := fun hcc => ht (hcc ▸ this)
      simpa using this
    have hrev : (pre ++ '.' :: t).reverse = t.reverse ++ '.' :: pre.reverse := by
      simp [List.reverse_append]
    have hdrop : (pre ++ '.' :: t).reverse.dropWhile (fun c => c != '.') = '.' :: pre.reverse := by
      rw [hrev, dropWhile_append_all _ _ _ htr]
      simp [List.dropWhile_cons]
    have htake : (pre ++ '.' :: t).reverse.takeWhile (fun c => c != '.') = t.reverse := by
      rw [hrev, takeWhile_append_all _ _ _ htr]
      simp [List.takeWhile_cons]
    have hany : pre.reverse.any (fun c => c != '.') = true := by
      obtain ⟨c, cs, rfl⟩ := List.exists_cons_of_ne_nil hne
      refine List.any_eq_true.mpr ⟨c, ?_, hpre c (List.mem_cons_self c cs)⟩
      simp
    simp only [splitextCore, hdrop, htake, hany, if_pos]
    simp

theorem splitextCore_extForm (cs : List Char) : ExtFormL (splitextCore cs).2 := by
  rcases h : cs.reverse.dropWhile (fun c => c != '.') with _ | ⟨c, before⟩
  · simp only [splitextCore, h]
    exact Or.inl rfl
  · by_cases hany : before.any (fun c => c != '.') = true
    · simp only [splitextCore, h, hany, if_pos]
      refine Or.inr ⟨(cs.reverse.takeWhile (fun c => c != '.')).reverse, rfl, ?_⟩
      intro hmem
      have : ('.' : Char) ∈ cs.reverse.takeWhile (fun c => c != '.') := List.mem_reverse.mp hmem
      have := List.mem_takeWhile_imp this
      simp at this
    · simp only [splitextCore, h, hany, if_neg, if_false]
      exact Or.inl rfl

theorem splitext_extForm (s : String) : ExtFormL (splitext s).2.data :=
  splitextCore_extForm s.data

theorem splitext_snd_targetName (j d : Nat) (e : String) (he : ExtFormL e.data) :
    (splitext (targetName j d e)).2 = e := by
  have hdig : ∀ c ∈ padC d j, (c != '.') = true :=
    fun c hc => isDigit_ne_dot (padC_digits d j c hc)
  have : splitextCore ((targetName j d e).data) = (padC d j, e.data) := by
    rw [targetName_data]
    exact splitextCore_prefix_append _ _ (padC_ne_nil d j) hdig he
  simp [splitext, this]

theorem splitext_snd_tmpCand (k : Nat) (e : String) (he : ExtFormL e.data) :
    (splitext (tmpCand k e)).2 = e := by
  have hdata : (tmpCand k e).data = ('t' :: 'm' :: 'p' :: List.replicate k 'x') ++ e.data := by
    simp [tmpCand]
  have hpre : ∀ c ∈ ('t' :: 'm' :: 'p' :: List.replicate k 'x'), (c != '.') = true := by
    intro c hc
    simp only [List.mem_cons] at hc
    rcases hc with rfl | rfl | rfl | hc
    · rfl
    · rfl
    · rfl
    · rw [List.eq_of_mem_replicate hc]; rfl
  have : splitextCore ((tmpCand k e).data) = (('t' :: 'm' :: 'p' :: List.replicate k 'x'), e.data) := by
    rw [hdata]
    exact splitextCore_prefix_append _ _ (by simp) hpre he
  simp [splitext, this]

/-! ### Temporary-name generator lemmas -/

theorem tmpCand_length (k : Nat) (e : String) :
    (tmpCand k e).data.length = 3 + (k + e.data.length) := by
  simp [tmpCand]
  omega

theorem tmpCand_inj (e : String) : Function.Injective (fun k => tmpCand k e) := by
  intro k₁ k₂ h
  have := congrArg (fun s => s.data.length) h
  simp only [tmpCand_length] at this
  omega

theorem gen_random_filename_fresh (disk : List String) (e : String) :
    gen_random_filename disk e ∉ disk := by
  rcases hL : (List.range (disk.length + 1)).filter
      (fun k => !(disk.contains (tmpCand k e))) with _ | ⟨a, rest⟩
  · exfalso
    have hall : ∀ k ∈ List.range (disk.length + 1), disk.contains (tmpCand k e) = true := by
      intro k hk
      have := List.filter_eq_nil_iff.mp hL k hk
      simpa using this
    have hsub : (List.range (disk.length + 1)).map (fun k => tmpCand k e) ⊆ disk := by
      intro x hx
      obtain ⟨k, hk, rfl⟩ := List.mem_map.mp hx
      exact List.elem_iff.mp (hall k hk)
    have hnd : ((List.range (disk.length + 1)).map (fun k => tmpCand k e)).Nodup :=
      (List.nodup_range _).map (tmpCand_inj e)
    have := (List.subperm_of_subset hnd hsub).length_le
    simp at this
  · intro hmem
    have ha : a ∈ (List.range (disk.length + 1)).filter
        (fun k => !(disk.contains (tmpCand k e))) := by rw [hL]; exact List.mem_cons_self a rest
    have := (List.mem_filter.mp ha).2
    rw [gen_random_filename, hL] at hmem
    simp only [List.headD_cons] at hmem
    rw [Bool.not_eq_true', ← Bool.not_eq_true] at this
    exact this (List.elem_iff.mpr hmem)

theorem isTmp_tmpCand (k : Nat) (e : String) : IsTmp (tmpCand k e) := rfl

theorem isTmp_gen_random_filename (disk : List String) (e : String) :
    IsTmp (gen_random_filename disk e) := isTmp_tmpCand _ _

theorem splitext_snd_gen_random_filename (disk : List String) (e : String)
    (he : ExtFormL e.data) : (splitext (gen_random_filename disk e)).2 = e :=
  splitext_snd_tmpCand _ _ he

/-! ### findIdx? helpers -/

theorem findIdx?_eq_some_of_unique {α : Type} (p : α → Bool) (l : List α) (i : Nat)
    (h : i < l.length) (hp : p (l.get ⟨i, h⟩) = true)
    (hmin : ∀ j (hj : j < l.length), j < i → p (l.get ⟨j, hj⟩) = false) :
    l.findIdx? p = some i := by
  induction l generalizing i with
  | nil => simp at h
  | cons x xs ih =>
    rw [List.findIdx?_cons]
    cases i with
    | zero =>
      simp only [List.get] at hp
      rw [hp]
      simp
    | succ i =>
      have hx : p x = false := hmin 0 (by simp) (by omega)
      rw [hx]
      simp only [Bool.false_eq_true, if_false, List.findIdx?_succ]
      have : xs.findIdx? p = some i := by
        refine ih i (by simpa using h) (by simpa using hp) ?_
        intro j hj hji
        have := hmin (j + 1) (by simpa using hj) (by omega)
        simpa using this
      rw [this]
      rfl

theorem findIdx?_eq_none_of_all {α : Type} (p : α → Bool) (l : List α)
    (h : ∀ x ∈ l, p x = false) : l.findIdx? p = none := by
  rw [List.findIdx?_eq_none_iff]
  intro x hx
  exact h x hx

/-! ### Branch equations of the rename loop -/

/-- The destination name computed for the file at position `p` of the batch
(the `dst_filename` of `src/rename_to_sequential.py:136-137`). -/
def dstOf (cfg : RenCfg) (p : Nat) (src : String) : String :=
  targetName (cfg.initial_number + p * cfg.step) cfg.digit (splitext src).2

theorem runBatchGo_noop_eq (cfg : RenCfg) (fuel : Nat) (fns disk : List String) (p : Nat)
    (src : String) (hget : fns.get? p = some src) (heq : src = dstOf cfg p src) :
    runBatchGo cfg (fuel + 1) fns disk p = runBatchGo cfg fuel fns disk (p + 1) := by
  unfold dstOf at heq
  simp only [runBatchGo, hget]
  rw [if_pos heq]

theorem runBatchGo_plain_eq (cfg : RenCfg) (fuel : Nat) (fns disk : List String) (p : Nat)
    (src : String) (hget : fns.get? p = some src) (hne : src ≠ dstOf cfg p src)
    (hdst : dstOf cfg p src ∉ disk) :
    runBatchGo cfg (fuel + 1) fns disk p =
      prependLog [(src, dstOf cfg p src)]
        (runBatchGo cfg fuel fns (dstOf cfg p src :: disk.erase src) (p + 1)) := by
  unfold dstOf at hne hdst ⊢
  have hc : disk.contains (targetName (cfg.initial_number + p * cfg.step) cfg.digit
      (splitext src).2) = false := by
    rw [Bool.eq_false_iff]
    intro h
    exact hdst (List.elem_iff.mp h)
  simp only [runBatchGo, hget]
  rw [if_neg hne, hc]
  simp

theorem runBatchGo_disp_eq (cfg : RenCfg) (fuel : Nat) (fns disk : List String) (p k : Nat)
    (src : String) (hget : fns.get? p = some src) (hne : src ≠ dstOf cfg p src)
    (hdst : dstOf cfg p src ∈ disk)
    (hidx : fns.findIdx? (fun x => x == dstOf cfg p src) = some k) :
    runBatchGo cfg (fuel + 1) fns disk p =
      prependLog [(dstOf cfg p src, gen_random_filename disk (splitext src).2),
                  (src, dstOf cfg p src)]
        (runBatchGo cfg fuel (fns.set k (gen_random_filename disk (splitext src).2))
          (dstOf cfg p src ::
            ((gen_random_filename disk (splitext src).2 ::
              disk.erase (dstOf cfg p src)).erase src)) (p + 1)) := by
  unfold dstOf at hne hdst hidx ⊢
  have hc : disk.contains (targetName (cfg.initial_number + p * cfg.step) cfg.digit
      (splitext src).2) = true := List.elem_iff.mpr hdst
  simp only [runBatchGo, hget]
  rw [if_neg hne, hc]
  simp only [if_true, hidx]

theorem runBatchGo_error_eq (cfg : RenCfg) (fuel : Nat) (fns disk : List String) (p : Nat)
    (src : String) (hget : fns.get? p = some src) (hne : src ≠ dstOf cfg p src)
    (hdst : dstOf cfg p src ∈ disk) (hnot : dstOf cfg p src ∉ fns) :
    runBatchGo cfg (fuel + 1) fns disk p = .error (disk, []) := by
  have hidx : fns.findIdx? (fun x => x == dstOf cfg p src) = none := by
    refine findIdx?_eq_none_of_all _ _ ?_
    intro x hx
    rw [beq_eq_false_iff_ne]
    intro hxe
    exact hnot (hxe ▸ hx)
  unfold dstOf at hne hdst hidx
  have hc : disk.contains (targetName (cfg.initial_number + p * cfg.step) cfg.digit
      (splitext src).2) = true := List.elem_iff.mpr hdst
  simp only [runBatchGo, hget]
  rw [if_neg hne, hc]
  simp only [if_true, hidx]

/-! ### Supporting lemmas for the claims -/

theorem padC_length (d j : Nat) : (padC d j).length = max d (toDec j).length := by
  simp [padC]
  omega

theorem padC_of_width_lt (d j : Nat) (h : d < (toDec j).length) : padC d j = toDec j := by
  unfold padC
  rw [Nat.sub_eq_zero_of_le (by omega)]
  simp

theorem enumerate_with_step_getElem? {α : Type} (xs : List α) (start st p : Nat) :
    (enumerate_with_step xs start st)[p]? = xs[p]?.map (fun x => (start + p * st, x)) := by
  induction xs generalizing start p with
  | nil => simp [enumerate_with_step]
  | cons x xs ih =>
    cases p with
    | zero => simp [enumerate_with_step]
    | succ p =>
      simp only [enumerate_with_step, List.getElem?_cons_succ]
      rw [ih (start + st) p]
      have : start + st + p * st = start + (p + 1) * st := by ring
      rw [this]

/-- The list of destination names the loop computes for a batch, position by
position. -/
def targetsOf (cfg : RenCfg) (batch : List String) : List String :=
  (List.range batch.length).map (fun p => dstOf cfg p (batch.getD p ""))

theorem dstOf_inj (cfg : RenCfg) (hstep : 1 ≤ cfg.step) (p q : Nat) (a b : String)
    (h : dstOf cfg p a = dstOf cfg q b) : p = q := by
  unfold dstOf at h
  have := (targetName_inj (splitext_extForm a) (splitext_extForm b) h).1
  have hpq : p * cfg.step = q * cfg.step := by omega
  exact Nat.eq_of_mul_eq_mul_right (by omega) hpq

/-! ### The claims -/

/-- Claim C1: when processing position `p`, if the computed destination `dst`
already exists on disk and the in-memory list holds `dst` (first) at position
`k`, the executor generates a temporary name `tmp` that does not collide with
any file on disk, renames the on-disk `dst` to `tmp`, updates the in-memory
list at position `k` to `tmp`, and renames the current file to `dst`; the
updated entry `tmp` is a file present on the resulting disk, so later
processing targets the displaced file's correct current path. -/
theorem claim_C1_displacement (cfg : RenCfg) (fuel : Nat) (fns disk : List String) (p k : Nat)
    (src : String) (hget : fns.get? p = some src) (hne : src ≠ dstOf cfg p src)
    (hsrc : src ∈ disk) (hdst : dstOf cfg p src ∈ disk)
    (hidx : fns.findIdx? (fun x => x == dstOf cfg p src) = some k) :
    runBatchGo cfg (fuel + 1) fns disk p =
      prependLog [(dstOf cfg p src, gen_random_filename disk (splitext src).2),
                  (src, dstOf cfg p src)]
        (runBatchGo cfg fuel (fns.set k (gen_random_filename disk (splitext src).2))
          (dstOf cfg p src ::
            ((gen_random_filename disk (splitext src).2 :: disk.erase (dstOf cfg p src)).erase src))
          (p + 1)) ∧
    gen_random_filename disk (splitext src).2 ∉ disk ∧
    (fns.set k (gen_random_filename disk (splitext src).2)).get? k =
      some (gen_random_filename disk (splitext src).2) ∧
    gen_random_filename disk (splitext src).2 ∈
      dstOf cfg p src ::
        ((gen_random_filename disk (splitext src).2 :: disk.erase (dstOf cfg p src)).erase src) := by
  have hfresh := gen_random_filename_fresh disk (splitext src).2
  have hk : k < fns.length := (List.findIdx?_eq_some_iff_findIdx_eq.mp hidx).1
  refine ⟨runBatchGo_disp_eq cfg fuel fns disk p k src hget hne hdst hidx, hfresh, ?_, ?_⟩
  · simp [List.get?_eq_getElem?, List.getElem?_set, hk]
  · have hts : gen_random_filename disk (splitext src).2 ≠ src := by
      intro h
      apply hfresh
      rw [h]
      exact hsrc
    refine List.mem_cons_of_mem _ ?_
    refine (List.mem_erase_of_ne hts).mpr ?_
    exact List.mem_cons_self _ _

/-- Witness for claim C1 at a concrete displacement: renaming
`["000.jpg", "001.jpg"]` with `initial_number = 1` displaces `001.jpg`. -/
theorem claim_C1_witness :
    gen_random_filename ["000.jpg", "001.jpg"] (splitext "000.jpg").2 ∉
      ["000.jpg", "001.jpg"] :=
  (claim_C1_displacement ⟨1, 1, 3, [".jpg"]⟩ 1 ["000.jpg", "001.jpg"] ["000.jpg", "001.jpg"]
    0 1 "000.jpg" rfl (by decide) (by decide) (by decide) (by decide)).2.1

/-- Claim C2: if the computed destination exists on disk but is absent from
the in-memory list, the loop surfaces an error (it does not silently
continue); and an erroring directory aborts the walk immediately — every
remaining directory is returned untouched, none is processed. -/
theorem claim_C2_inconsistency_aborts :
    (∀ (cfg : RenCfg) (fuel : Nat) (fns disk : List String) (p : Nat) (src : String),
      fns.get? p = some src → src ≠ dstOf cfg p src → dstOf cfg p src ∈ disk →
      dstOf cfg p src ∉ fns →
      ∃ e, runBatchGo cfg (fuel + 1) fns disk p = .error e) ∧
    (∀ (cfg : RenCfg) (d : String) (files : List String)
      (rest : List (String × List String)) (e : FsState),
      runDir cfg files = .error e →
      walkRun cfg ((d, files) :: rest) = .error ((d, e.1) :: rest)) := by
  constructor
  · intro cfg fuel fns disk p src hget hne hdst hnot
    exact ⟨(disk, []), runBatchGo_error_eq cfg fuel fns disk p src hget hne hdst hnot⟩
  · intro cfg d files rest e herr
    obtain ⟨d', lg⟩ := e
    simp [walkRun, herr]

/-- Witness for claim C2: a directory holding `a.jpg` and an alien `001.jpg`
that the one-element batch `["a.jpg"]` cannot account for. -/
theorem claim_C2_witness :
    ∃ e, runBatchGo ⟨1, 1, 3, [".jpg"]⟩ 1 ["a.jpg"] ["a.jpg", "001.jpg"] 0 = .error e :=
  claim_C2_inconsistency_aborts.1 ⟨1, 1, 3, [".jpg"]⟩ 0 ["a.jpg"] ["a.jpg", "001.jpg"]
    0 "a.jpg" rfl (by decide) (by decide) (by decide)

/-- Claim C5: the generated target filename is the zero-padded decimal
representation of `j` to width `d` followed by the extension: a digit string
that parses back to `j`, of length `max d (number of decimal digits)`, and
when `j` needs more than `d` digits the output is the full representation —
wider than `d`, never truncated. -/
theorem claim_C5_target_format (j d : Nat) (ext : String) :
    ∃ num : List Char,
      targetName j d ext = String.mk num ++ ext ∧
      (∀ c ∈ num, c.isDigit = true) ∧
      ofDecL num = j ∧
      num.length = max d (toDec j).length ∧
      (d < (toDec j).length → num = toDec j) :=
  ⟨padC d j, rfl, padC_digits d j, ofDecL_padC d j, padC_length d j, padC_of_width_lt d j⟩

/-- Witness for claim C5: `j = 12345`, `d = 3` — five digits, not truncated. -/
theorem claim_C5_witness :
    ∃ num : List Char,
      targetName 12345 3 ".jpg" = String.mk num ++ ".jpg" ∧
      (∀ c ∈ num, c.isDigit = true) ∧
      ofDecL num = 12345 ∧
      num.length = max 3 (toDec 12345).length ∧
      (3 < (toDec 12345).length → num = toDec 12345) :=
  claim_C5_target_format 12345 3 ".jpg"

/-- Claim C6: the enumeration assigns to the entry at zero-based position `p`
the target index `initialNumber + p * step`; concretely, three files with
`initial_number = 5`, `step = 2`, `digit = 3` are renamed to `005.jpg`,
`007.jpg` and `009.jpg`. -/
theorem claim_C6_plan_indices :
    (∀ (xs : List String) (start st p : Nat),
      (enumerate_with_step xs start st)[p]? = xs[p]?.map (fun x => (start + p * st, x))) ∧
    runDir ⟨5, 2, 3, [".jpg"]⟩ ["a.jpg", "b.jpg", "c.jpg"] =
      .ok (["009.jpg", "007.jpg", "005.jpg"],
        [("a.jpg", "005.jpg"), ("b.jpg", "007.jpg"), ("c.jpg", "009.jpg")]) :=
  ⟨fun xs start st p => enumerate_with_step_getElem? xs start st p, by rfl⟩

/-- Claim C7: out-of-range digit, non-positive step and a non-existent target
directory each fail validation; a failed validation returns with the
filesystem untouched; and all violations are collected together (a
configuration violating all three reports all three messages). -/
theorem claim_C7_validation :
    (∀ (r : ImageRenamer) (dirs : List String),
      r.digit < 3 ∨ 9 < r.digit → digitErr ∈ validationErrors r dirs) ∧
    (∀ (r : ImageRenamer) (dirs : List String),
      r.step ≤ 0 → stepErr ∈ validationErrors r dirs) ∧
    (∀ (r : ImageRenamer) (dirs : List String),
      r.target_dir ∉ dirs → dirErr ∈ validationErrors r dirs) ∧
    (∀ (r : ImageRenamer) (dirs : List String) (fs : List (String × List String))
      (confirm : Bool),
      validationErrors r dirs ≠ [] → rename r dirs fs confirm = fs) ∧
    validationErrors ⟨"missing", 2, [".jpg"], 1, 0, false⟩ [] = [dirErr, digitErr, stepErr] := by
  refine ⟨?_, ?_, ?_, ?_, by rfl⟩
  · intro r dirs h
    have : is_in_range r.digit 3 9 = false := by
      simp only [is_in_range, decide_eq_false_iff_not]
      omega
    simp [validationErrors, this]
  · intro r dirs h
    have : is_positive_number r.step = false := by
      simp only [is_positive_number, decide_eq_false_iff_not]
      omega
    simp [validationErrors, this]
  · intro r dirs h
    have : is_dir dirs r.target_dir = false := by
      rw [is_dir, Bool.eq_false_iff]
      intro hc
      exact h (List.elem_iff.mp hc)
    simp [validationErrors, this]
  · intro r dirs fs confirm h
    rw [rename, if_neg]
    intro hempty
    exact h (List.isEmpty_iff.mp hempty)

/-- Witness for claim C7: `digit = 10` is rejected. -/
theorem claim_C7_witness :
    digitErr ∈ validationErrors ⟨"d", 10, [".jpg"], 0, 1, true⟩ ["d"] :=
  claim_C7_validation.1 ⟨"d", 10, [".jpg"], 0, 1, true⟩ ["d"] (Or.inr (by decide))

/-- Claim C8: a file whose current name already equals its computed
destination is left untouched — the loop state (list, disk, rename log)
passes through unchanged and processing advances to the next position;
concretely, running over `["001.jpg", "b.jpg"]` with `digit = 3`,
`initial_number = 1` logs a rename only for `b.jpg`. -/
theorem claim_C8_noop (cfg : RenCfg) (fuel : Nat) (fns disk : List String) (p : Nat)
    (src : String) (hget : fns.get? p = some src) (heq : src = dstOf cfg p src) :
    runBatchGo cfg (fuel + 1) fns disk p = runBatchGo cfg fuel fns disk (p + 1) ∧
    runDir ⟨1, 1, 3, [".jpg"]⟩ ["001.jpg", "b.jpg"] =
      .ok (["002.jpg", "001.jpg"], [("b.jpg", "002.jpg")]) :=
  ⟨runBatchGo_noop_eq cfg fuel fns disk p src hget heq, by rfl⟩

/-- Witness for claim C8 at the first position of `["001.jpg", "b.jpg"]`. -/
theorem claim_C8_witness :
    runBatchGo ⟨1, 1, 3, [".jpg"]⟩ 2 ["001.jpg", "b.jpg"] ["001.jpg", "b.jpg"] 0 =
      runBatchGo ⟨1, 1, 3, [".jpg"]⟩ 1 ["001.jpg", "b.jpg"] ["001.jpg", "b.jpg"] 1 :=
  (claim_C8_noop ⟨1, 1, 3, [".jpg"]⟩ 1 ["001.jpg", "b.jpg"] ["001.jpg", "b.jpg"] 0
    "001.jpg" rfl (by decide)).1

/-- Claim C9: under a positive step the destination filenames computed for
the positions of a batch are pairwise distinct (the digit width is the single
`cfg.digit` for the whole run). -/
theorem claim_C9_targets_distinct (cfg : RenCfg) (batch : List String) (hstep : 1 ≤ cfg.step) :
    (targetsOf cfg batch).Nodup := by
  refine List.Nodup.map_on ?_ (List.nodup_range _)
  intro p hp q hq h
  exact dstOf_inj cfg hstep p q _ _ h

/-- Witness for claim C9 on a two-file batch. -/
theorem claim_C9_witness :
    (targetsOf ⟨1, 1, 3, [".jpg"]⟩ ["a.jpg", "b.jpg"]).Nodup :=
  claim_C9_targets_distinct ⟨1, 1, 3, [".jpg"]⟩ ["a.jpg", "b.jpg"] (by decide)

/-- Claim C10: when the batch-inconsistency error is raised (destination on
disk but absent from the in-memory list), no rename has been performed in
that iteration: the loop aborts with exactly the disk it had at the start of
the iteration and an empty rename log for it. -/
theorem claim_C10_abort_state (cfg : RenCfg) (fuel : Nat) (fns disk : List String) (p : Nat)
    (src : String) (hget : fns.get? p = some src) (hne : src ≠ dstOf cfg p src)
    (hdst : dstOf cfg p src ∈ disk) (hnot : dstOf cfg p src ∉ fns) :
    runBatchGo cfg (fuel + 1) fns disk p = .error (disk, []) :=
  runBatchGo_error_eq cfg fuel fns disk p src hget hne hdst hnot

/-- Witness for claim C10: the abort returns the untouched two-file disk. -/
theorem claim_C10_witness :
    runBatchGo ⟨1, 1, 3, [".jpg"]⟩ 1 ["a.jpg"] ["a.jpg", "001.jpg"] 0 =
      .error (["a.jpg", "001.jpg"], []) :=
  claim_C10_abort_state ⟨1, 1, 3, [".jpg"]⟩ 0 ["a.jpg"] ["a.jpg", "001.jpg"]
    0 "a.jpg" rfl (by decide) (by decide) (by decide)

/-! ### Characterization of a successfully completed batch -/

theorem getD_mem_of_lt (l : List String) (k : Nat) (h : k < l.length) : l.getD k "" ∈ l := by
  rw [List.getD_eq_getElem l _ h]
  exact List.getElem_mem _

theorem not_isTmp_dstOf (cfg : RenCfg) (p : Nat) (s : String) : ¬ IsTmp (dstOf cfg p s) :=
  not_isTmp_targetName _ _ _

theorem dstOf_ext_congr (cfg : RenCfg) (p : Nat) (a b : String)
    (h : (splitext a).2 = (splitext b).2) : dstOf cfg p a = dstOf cfg p b := by
  unfold dstOf
  rw [h]

theorem splitext_snd_dstOf (cfg : RenCfg) (p : Nat) (s : String) :
    (splitext (dstOf cfg p s)).2 = (splitext s).2 :=
  splitext_snd_targetName _ _ _ (splitext_extForm s)

theorem targetsOf_length (cfg : RenCfg) (batch : List String) :
    (targetsOf cfg batch).length = batch.length := by
  simp [targetsOf]

theorem targetsOf_getElem (cfg : RenCfg) (batch : List String) (k : Nat)
    (h : k < (targetsOf cfg batch).length) :
    (targetsOf cfg batch)[k] = dstOf cfg k (batch.getD k "") := by
  simp [targetsOf]

theorem mem_targetsOf (cfg : RenCfg) (batch : List String) (x : String) :
    x ∈ targetsOf cfg batch ↔ ∃ k, k < batch.length ∧ x = dstOf cfg k (batch.getD k "") := by
  simp only [targetsOf, List.mem_map, List.mem_range]
  constructor
  · rintro ⟨k, hk, rfl⟩
    exact ⟨k, hk, rfl⟩
  · rintro ⟨k, hk, rfl⟩
    exact ⟨k, hk, rfl⟩

theorem prependLog_ok_iff (l : RenLog) (x : Except FsState FsState) (d : List String)
    (lg : RenLog) :
    prependLog l x = .ok (d, lg) ↔ ∃ lg', x = .ok (d, lg') ∧ lg = l ++ lg' := by
  cases x with
  | ok v =>
    obtain ⟨dv, lv⟩ := v
    simp only [prependLog, Except.ok.injEq, Prod.mk.injEq]
    constructor
    · rintro ⟨rfl, rfl⟩
      exact ⟨lv, ⟨rfl, rfl⟩, rfl⟩
    · rintro ⟨lg', ⟨h1, h2⟩, rfl⟩
      exact ⟨h1, by rw [h2]⟩
  | error v =>
    obtain ⟨dv, lv⟩ := v
    simp [prependLog]

theorem drop_set_of_le {α : Type} (l : List α) (m j : Nat) (a : α) (h : m ≤ j) :
    (l.set j a).drop m = (l.drop m).set (j - m) a := by
  apply List.ext_getElem?
  intro i
  rw [List.getElem?_drop, List.getElem?_set, List.getElem?_set, List.getElem?_drop]
  simp only [List.length_drop]
  split_ifs <;> first | rfl | (exfalso; omega)

/-- The loop invariant of the rename loop after the positions before `p` have
been processed: the in-memory list keeps its length, every entry keeps the
extension of the original batch entry and is either the original name or a
generated temporary name; the disk holds no duplicates and consists exactly of
the untouched non-batch files, the already-installed destination names, and
the current names of the pending entries. -/
structure LoopInv (cfg : RenCfg) (batch₀ others : List String) (p : Nat)
    (fns disk : List String) : Prop where
  len_eq : fns.length = batch₀.length
  ext_eq : ∀ k, (splitext (fns.getD k "")).2 = (splitext (batch₀.getD k "")).2
  orig_or_tmp : ∀ k, k < batch₀.length → fns.getD k "" = batch₀.getD k "" ∨ IsTmp (fns.getD k "")
  nodup : disk.Nodup
  members : (disk : Multiset String) =
    (others : Multiset String) + ((targetsOf cfg batch₀).take p : Multiset String) +
      (fns.drop p : Multiset String)

theorem runBatchGo_characterize (cfg : RenCfg) (batch₀ others : List String)
    (hstep : 1 ≤ cfg.step) (hbn : batch₀.Nodup)
    (hdisj : ∀ x ∈ others, x ∉ batch₀) :
    ∀ (fuel p : Nat) (fns disk : List String), p + fuel = batch₀.length →
      LoopInv cfg batch₀ others p fns disk →
      ∀ disk' log, runBatchGo cfg fuel fns disk p = .ok (disk', log) →
        disk'.Nodup ∧
        (disk' : Multiset String) =
          (others : Multiset String) + (targetsOf cfg batch₀ : Multiset String) := by
  intro fuel
  induction fuel with
  | zero =>
    intro p fns disk hpn inv disk' log hok
    simp only [runBatchGo, Except.ok.injEq, Prod.mk.injEq] at hok
    obtain ⟨rfl, rfl⟩ := hok.1, hok.2
    have htake : (targetsOf cfg batch₀).take p = targetsOf cfg batch₀ :=
      List.take_of_length_le (by rw [targetsOf_length]; omega)
    have hdrop : fns.drop p = [] :=
      List.drop_eq_nil_of_le (by rw [inv.len_eq]; omega)
    refine ⟨inv.nodup, ?_⟩
    rw [inv.members, htake, hdrop, Multiset.coe_nil, add_zero]
  | succ fuel ih =>
    intro p fns disk hpn inv disk' log hok
    have hp : p < batch₀.length := by omega
    have hpf : p < fns.length := by rw [inv.len_eq]; exact hp
    have hget : fns.get? p = some (fns.getD p "") := by
      rw [List.get?_eq_getElem?, List.getElem?_eq_getElem hpf, List.getD_eq_getElem fns _ hpf]
    have hdst_tgt : dstOf cfg p (fns.getD p "") = dstOf cfg p (batch₀.getD p "") :=
      dstOf_ext_congr cfg p _ _ (inv.ext_eq p)
    have hdropP : fns.drop p = fns.getD p "" :: fns.drop (p + 1) := by
      rw [← List.getElem_cons_drop fns p hpf, List.getD_eq_getElem fns _ hpf]
    have htakeP : (targetsOf cfg batch₀).take (p + 1) =
        (targetsOf cfg batch₀).take p ++ [dstOf cfg p (batch₀.getD p "")] := by
      have hpl : p < (targetsOf cfg batch₀).length := by rw [targetsOf_length]; exact hp
      rw [List.take_succ, List.getElem?_eq_getElem hpl, targetsOf_getElem cfg batch₀ p hpl]
      rfl
    by_cases heq : fns.getD p "" = dstOf cfg p (fns.getD p "")
    · -- already named: no-op branch
      rw [runBatchGo_noop_eq cfg fuel fns disk p _ hget heq] at hok
      refine ih (p + 1) fns disk (by omega) ?_ disk' log hok
      refine ⟨inv.len_eq, inv.ext_eq, inv.orig_or_tmp, inv.nodup, ?_⟩
      rw [inv.members, hdropP, htakeP]
      rw [← heq] at hdst_tgt
      rw [← hdst_tgt]
      simp only [← Multiset.coe_add, ← Multiset.cons_coe, ← Multiset.singleton_add]
      abel
    · have hsrc_mem : fns.getD p "" ∈ disk := by
        have : fns.getD p "" ∈ (disk : Multiset String) := by
          rw [inv.members, hdropP]
          simp only [← Multiset.cons_coe, ← Multiset.singleton_add, Multiset.mem_add]
          right
          simp
        exact Multiset.mem_coe.mp this
      by_cases hmem : dstOf cfg p (fns.getD p "") ∈ disk
      · -- collision branch
        have hdstm : dstOf cfg p (fns.getD p "") ∈ others ∨
            dstOf cfg p (fns.getD p "") ∈ (targetsOf cfg batch₀).take p ∨
            dstOf cfg p (fns.getD p "") ∈ fns.drop p := by
          have : dstOf cfg p (fns.getD p "") ∈ (disk : Multiset String) :=
            Multiset.mem_coe.mpr hmem
          rw [inv.members] at this
          simpa [Multiset.mem_add, Multiset.mem_coe] using this
        -- it cannot be an already-installed destination
        have hnot_take : dstOf cfg p (fns.getD p "") ∉ (targetsOf cfg batch₀).take p := by
          intro hx
          obtain ⟨i, hi, hie⟩ := List.mem_iff_getElem.mp hx
          have hip : i < p := by
            have := hi
            simp only [List.length_take] at this
            omega
          have hil : i < (targetsOf cfg batch₀).length := by
            rw [targetsOf_length]; omega
          rw [List.getElem_take] at hie
          rw [targetsOf_getElem cfg batch₀ i hil] at hie
          have : i = p := dstOf_inj cfg hstep i p _ _ (by rw [hie, hdst_tgt])
          omega
        rcases hdstm with hcase | hcase | hcase
        · -- destination owned by a non-batch file: the loop errors, contradiction
          have hnot_fns : dstOf cfg p (fns.getD p "") ∉ fns := by
            intro hx
            obtain ⟨k, hk, hke⟩ := List.mem_iff_getElem.mp hx
            have hkd : fns.getD k "" = dstOf cfg p (fns.getD p "") := by
              rw [List.getD_eq_getElem fns _ hk, hke]
            rcases inv.orig_or_tmp k (by rw [← inv.len_eq]; exact hk) with hor | hor
            · have : batch₀.getD k "" ∈ batch₀ :=
                getD_mem_of_lt batch₀ k (by rw [← inv.len_eq]; exact hk)
              rw [← hor, hkd] at this
              exact hdisj _ hcase this
            · rw [hkd] at hor
              exact not_isTmp_dstOf cfg p _ hor
          rw [runBatchGo_error_eq cfg fuel fns disk p _ hget heq hmem hnot_fns] at hok
          simp at hok
        · exact absurd hcase hnot_take
        · -- destination owned by a pending batch entry at position q > p
          obtain ⟨i, hi, hie⟩ := List.mem_iff_getElem.mp hcase
          have hq : p + 1 + i ≤ fns.length := by
            have := hi
            simp only [List.length_drop] at this
            omega
          have hql : p + i < fns.length := by omega
          rw [List.getElem_drop] at hie
          -- q := p + i
          have hqe : fns.getD (p + i) "" = dstOf cfg p (fns.getD p "") := by
            rw [List.getD_eq_getElem fns _ hql, hie]
          have hqp : p + i ≠ p := by
            intro h
            have : i = 0 := by omega
            rw [this, Nat.add_zero] at hqe
            exact heq hqe
          have hibz : 0 < i := by omega
          have hqb : batch₀.getD (p + i) "" = dstOf cfg p (fns.getD p "") := by
            rcases inv.orig_or_tmp (p + i) (by rw [← inv.len_eq]; exact hql) with hor | hor
            · rw [← hor]; exact hqe
            · rw [hqe] at hor
              exact absurd hor (not_isTmp_dstOf cfg p _)
          have hmin : ∀ k, k < p + i → ∀ hk : k < fns.length,
              fns[k] ≠ dstOf cfg p (fns.getD p "") := by
            intro k hki hk hke
            have hkd : fns.getD k "" = dstOf cfg p (fns.getD p "") := by
              rw [List.getD_eq_getElem fns _ hk, hke]
            have hkb : batch₀.getD k "" = dstOf cfg p (fns.getD p "") := by
              rcases inv.orig_or_tmp k (by rw [← inv.len_eq]; exact hk) with hor | hor
              · rw [← hor]; exact hkd
              · rw [hkd] at hor
                exact absurd hor (not_isTmp_dstOf cfg p _)
            have hkn : k < batch₀.length := by rw [← inv.len_eq]; exact hk
            have hqn : p + i < batch₀.length := by rw [← inv.len_eq]; exact hql
            have : batch₀[k] = batch₀[p + i] := by
              rw [← List.getD_eq_getElem batch₀ _ hkn, ← List.getD_eq_getElem batch₀ _ hqn,
                hkb, hqb]
            have := (List.Nodup.getElem_inj_iff hbn).mp this
            omega
          have hidx : fns.findIdx? (fun x => x == dstOf cfg p (fns.getD p "")) =
              some (p + i) := by
            refine findIdx?_eq_some_of_unique _ _ (p + i) hql ?_ ?_
            · rw [List.get_eq_getElem, hie]
              exact beq_self_eq_true _
            · intro j hj hji
              rw [List.get_eq_getElem, beq_eq_false_iff_ne]
              exact hmin j hji hj
          rw [runBatchGo_disp_eq cfg fuel fns disk p (p + i) _ hget heq hmem hidx] at hok
          rw [prependLog_ok_iff] at hok
          obtain ⟨log', hok, rfl⟩ := hok
          have hfresh : gen_random_filename disk (splitext (fns.getD p "")).2 ∉ disk :=
            gen_random_filename_fresh disk _
          have hts : gen_random_filename disk (splitext (fns.getD p "")).2 ≠ fns.getD p "" := by
            intro h
            apply hfresh
            rw [h]
            exact hsrc_mem
          have htd : gen_random_filename disk (splitext (fns.getD p "")).2 ≠
              dstOf cfg p (fns.getD p "") := by
            intro h
            apply hfresh
            rw [h]
            exact hmem
          have hext_tmp : (splitext (gen_random_filename disk (splitext (fns.getD p "")).2)).2 =
              (splitext (fns.getD p "")).2 :=
            splitext_snd_gen_random_filename disk _ (splitext_extForm _)
          refine ih (p + 1) (fns.set (p + i) (gen_random_filename disk (splitext (fns.getD p "")).2))
            (dstOf cfg p (fns.getD p "") ::
              ((gen_random_filename disk (splitext (fns.getD p "")).2 ::
                disk.erase (dstOf cfg p (fns.getD p ""))).erase (fns.getD p "")))
            (by omega) ?_ disk' log' hok
          refine ⟨?_, ?_, ?_, ?_, ?_⟩
          · rw [List.length_set]; exact inv.len_eq
          ·
            intro k
            by_cases hkq : k = p + i
            · rw [hkq]
              have hkl : p + i < (fns.set (p + i) (gen_random_filename disk (splitext (fns.getD p "")).2)).length := by
                rw [List.length_set]; exact hql
              rw [List.getD_eq_getElem _ _ hkl, List.getElem_set_self, hext_tmp, hqb,
                splitext_snd_dstOf]
            · by_cases hkl : k < fns.length
              · have hkl' : k < (fns.set (p + i) (gen_random_filename disk (splitext (fns.getD p "")).2)).length := by
                  rw [List.length_set]; exact hkl
                rw [List.getD_eq_getElem _ _ hkl', List.getElem_set_ne (fun h => hkq h.symm),
                  ← List.getD_eq_getElem fns _ hkl]
                exact inv.ext_eq k
              · rw [List.getD_eq_default _ _ (by rw [List.length_set]; omega),
                  List.getD_eq_default _ _ (by rw [← inv.len_eq]; omega)]
          ·
            intro k hk
            by_cases hkq : k = p + i
            · rw [hkq]
              right
              have hkl : p + i < (fns.set (p + i) (gen_random_filename disk (splitext (fns.getD p "")).2)).length := by
                rw [List.length_set]; exact hql
              rw [List.getD_eq_getElem _ _ hkl, List.getElem_set_self]
              exact isTmp_gen_random_filename disk _
            · have hkl : k < fns.length := by rw [inv.len_eq]; exact hk
              have hkl' : k < (fns.set (p + i) (gen_random_filename disk (splitext (fns.getD p "")).2)).length := by
                rw [List.length_set]; exact hkl
              rw [List.getD_eq_getElem _ _ hkl', List.getElem_set_ne (fun h => hkq h.symm),
                ← List.getD_eq_getElem fns _ hkl]
              exact inv.orig_or_tmp k hk
          ·
            have h1 : (disk.erase (dstOf cfg p (fns.getD p ""))).Nodup := inv.nodup.erase _
            have h2 : gen_random_filename disk (splitext (fns.getD p "")).2 ∉
                disk.erase (dstOf cfg p (fns.getD p "")) := by
              intro h
              exact hfresh (List.mem_of_mem_erase h)
            have h3 : (gen_random_filename disk (splitext (fns.getD p "")).2 ::
                disk.erase (dstOf cfg p (fns.getD p ""))).Nodup :=
              List.nodup_cons.mpr ⟨h2, h1⟩
            have h4 := h3.erase (fns.getD p "")
            refine List.nodup_cons.mpr ⟨?_, h4⟩
            intro h
            have h5 := List.mem_of_mem_erase h
            rcases List.mem_cons.mp h5 with h6 | h6
            · exact htd h6.symm
            · exact (inv.nodup.mem_erase_iff.mp h6).1 rfl
          ·
            -- decompose the pending tail around the displaced entry
            have hilen : i - 1 < (fns.drop (p + 1)).length := by
              simp only [List.length_drop]
              omega
            have hCi : (fns.drop (p + 1))[i - 1] = dstOf cfg p (fns.getD p "") := by
              rw [List.getElem_drop]
              have : p + 1 + (i - 1) = p + i := by omega
              simp only [this]
              exact hie
            have hCdec : fns.drop (p + 1) =
                (fns.drop (p + 1)).take (i - 1) ++ dstOf cfg p (fns.getD p "") ::
                  (fns.drop (p + 1)).drop i := by
              have h2 : (fns.drop (p + 1)).drop (i - 1) =
                  dstOf cfg p (fns.getD p "") :: (fns.drop (p + 1)).drop i := by
                rw [← List.getElem_cons_drop (fns.drop (p + 1)) (i - 1) hilen, hCi]
                have : i - 1 + 1 = i := by omega
                rw [this]
              conv_lhs => rw [← List.take_append_drop (i - 1) (fns.drop (p + 1))]
              rw [h2]
            have hset_drop : (fns.set (p + i) (gen_random_filename disk (splitext (fns.getD p "")).2)).drop (p + 1) =
                (fns.drop (p + 1)).set (i - 1) (gen_random_filename disk (splitext (fns.getD p "")).2) := by
              rw [drop_set_of_le fns (p + 1) (p + i) _ (by omega)]
              have : p + i - (p + 1) = i - 1 := by omega
              rw [this]
            have hCset : (fns.drop (p + 1)).set (i - 1)
                (gen_random_filename disk (splitext (fns.getD p "")).2) =
                (fns.drop (p + 1)).take (i - 1) ++
                  gen_random_filename disk (splitext (fns.getD p "")).2 ::
                    (fns.drop (p + 1)).drop i := by
              rw [List.set_eq_take_cons_drop _ hilen]
              have : i - 1 + 1 = i := by omega
              rw [this]
            -- the disk as a multiset, with src and dst pulled out front
            have hDm : (disk : Multiset String) =
                fns.getD p "" ::ₘ dstOf cfg p (fns.getD p "") ::ₘ
                  ((others : Multiset String) +
                   ((targetsOf cfg batch₀).take p : Multiset String) +
                   ((fns.drop (p + 1)).take (i - 1) : Multiset String) +
                   ((fns.drop (p + 1)).drop i : Multiset String)) := by
              rw [inv.members, hdropP]
              conv_lhs => rw [hCdec]
              simp only [← Multiset.coe_add, ← Multiset.cons_coe, ← Multiset.singleton_add,
                Multiset.coe_nil]
              abel
            have hDm' : (disk : Multiset String) =
                dstOf cfg p (fns.getD p "") ::ₘ fns.getD p "" ::ₘ
                  ((others : Multiset String) +
                   ((targetsOf cfg batch₀).take p : Multiset String) +
                   ((fns.drop (p + 1)).take (i - 1) : Multiset String) +
                   ((fns.drop (p + 1)).drop i : Multiset String)) := by
              rw [hDm, Multiset.cons_swap]
            have her1 : ((disk.erase (dstOf cfg p (fns.getD p "")) : List String) : Multiset String) =
                fns.getD p "" ::ₘ
                  ((others : Multiset String) +
                   ((targetsOf cfg batch₀).take p : Multiset String) +
                   ((fns.drop (p + 1)).take (i - 1) : Multiset String) +
                   ((fns.drop (p + 1)).drop i : Multiset String)) := by
              rw [← Multiset.coe_erase, hDm', Multiset.erase_cons_head]
            have her2 : (((gen_random_filename disk (splitext (fns.getD p "")).2 ::
                disk.erase (dstOf cfg p (fns.getD p ""))).erase (fns.getD p "") : List String) :
                  Multiset String) =
                gen_random_filename disk (splitext (fns.getD p "")).2 ::ₘ
                  ((others : Multiset String) +
                   ((targetsOf cfg batch₀).take p : Multiset String) +
                   ((fns.drop (p + 1)).take (i - 1) : Multiset String) +
                   ((fns.drop (p + 1)).drop i : Multiset String)) := by
              rw [← Multiset.coe_erase, ← Multiset.cons_coe, her1, Multiset.cons_swap,
                Multiset.erase_cons_head]
            show ((dstOf cfg p (fns.getD p "") ::
                ((gen_random_filename disk (splitext (fns.getD p "")).2 ::
                  disk.erase (dstOf cfg p (fns.getD p ""))).erase (fns.getD p "")) : List String) :
                  Multiset String) = _
            rw [← Multiset.cons_coe, her2, hset_drop, hCset, htakeP, ← hdst_tgt]
            simp only [← Multiset.coe_add, ← Multiset.cons_coe, ← Multiset.singleton_add,
              Multiset.coe_nil]
            abel
      · -- plain rename branch
        rw [runBatchGo_plain_eq cfg fuel fns disk p _ hget heq hmem] at hok
        rw [prependLog_ok_iff] at hok
        obtain ⟨log', hok, rfl⟩ := hok
        refine ih (p + 1) fns (dstOf cfg p (fns.getD p "") :: disk.erase (fns.getD p ""))
          (by omega) ?_ disk' log' hok
        have hD : (disk : Multiset String) =
            fns.getD p "" ::ₘ
              ((others : Multiset String) +
               ((targetsOf cfg batch₀).take p : Multiset String) +
               (fns.drop (p + 1) : Multiset String)) := by
          rw [inv.members, hdropP]
          simp only [← Multiset.coe_add, ← Multiset.cons_coe, ← Multiset.singleton_add]
          abel
        refine ⟨inv.len_eq, inv.ext_eq, inv.orig_or_tmp, ?_, ?_⟩
        · refine List.nodup_cons.mpr ⟨?_, inv.nodup.erase _⟩
          intro h
          exact hmem (List.mem_of_mem_erase h)
        · have her : ((disk.erase (fns.getD p "") : List String) : Multiset String) =
              (others : Multiset String) +
               ((targetsOf cfg batch₀).take p : Multiset String) +
               (fns.drop (p + 1) : Multiset String) := by
            rw [← Multiset.coe_erase, hD, Multiset.erase_cons_head]
          show ((dstOf cfg p (fns.getD p "") :: disk.erase (fns.getD p "") : List String) :
              Multiset String) = _
          rw [← Multiset.cons_coe, her, htakeP, ← hdst_tgt]
          simp only [← Multiset.coe_add, ← Multiset.cons_coe, ← Multiset.singleton_add,
            Multiset.coe_nil]
          abel

theorem runDir_characterize (cfg : RenCfg) (files : List String)
    (hstep : 1 ≤ cfg.step) (hnd : files.Nodup) (disk' : List String) (log : RenLog)
    (hok : runDir cfg files = .ok (disk', log)) :
    disk'.Nodup ∧
    (disk' : Multiset String) =
      ((sortNatural files).filter (fun f => !(endswithAny cfg.extensions f)) : Multiset String) +
      (targetsOf cfg (batchOf cfg.extensions files) : Multiset String) := by
  have hperm : List.Perm (sortNatural files) files := List.perm_insertionSort natLE files
  have hsn : (sortNatural files).Nodup := hperm.nodup_iff.mpr hnd
  have hsplit : ((batchOf cfg.extensions files : List String) : Multiset String) +
      ((sortNatural files).filter (fun f => !(endswithAny cfg.extensions f)) : Multiset String) =
      (files : Multiset String) := by
    have h1 := List.filter_append_perm (fun f => endswithAny cfg.extensions f) (sortNatural files)
    have h2 : List.Perm
        ((sortNatural files).filter (fun f => endswithAny cfg.extensions f) ++
          (sortNatural files).filter (fun f => !(endswithAny cfg.extensions f)))
        files := h1.trans hperm
    have h3 := Multiset.coe_eq_coe.mpr h2
    rw [← Multiset.coe_add] at h3
    exact h3
  simp only [runDir] at hok
  split at hok
  · -- empty batch: directory skipped unchanged
    next hb =>
    simp only [Except.ok.injEq, Prod.mk.injEq] at hok
    obtain ⟨rfl, -⟩ := hok
    have hbnil : batchOf cfg.extensions files = [] := List.isEmpty_iff.mp hb
    have htnil : targetsOf cfg (batchOf cfg.extensions files) = [] := by
      rw [hbnil]
      rfl
    refine ⟨hnd, ?_⟩
    rw [htnil, Multiset.coe_nil, add_zero, ← hsplit, hbnil, Multiset.coe_nil, zero_add]
  · -- nonempty batch: the loop ran
    have hbn : (batchOf cfg.extensions files).Nodup := hsn.filter _
    have hdisj : ∀ x ∈ (sortNatural files).filter (fun f => !(endswithAny cfg.extensions f)),
        x ∉ batchOf cfg.extensions files := by
      intro x hx hxb
      have h1 := (List.mem_filter.mp hx).2
      have h2 := (List.mem_filter.mp hxb).2
      simp at h1
      rw [h1] at h2
      exact Bool.false_ne_true h2
    have hcc := runBatchGo_characterize cfg (batchOf cfg.extensions files)
      ((sortNatural files).filter (fun f => !(endswithAny cfg.extensions f)))
      hstep hbn hdisj (batchOf cfg.extensions files).length 0
      (batchOf cfg.extensions files) files (by omega) ?_ disk' log hok
    · exact hcc
    · refine ⟨rfl, fun k => rfl, fun k hk => Or.inl rfl, hnd, ?_⟩
      rw [List.take_zero, List.drop_zero, Multiset.coe_nil, add_zero]
      rw [← hsplit]
      abel

/-- Claim C4: a directory batch that completes successfully leaves no
temporary file behind: every file on the resulting disk is either a file that
was already in the directory or one of the computed destination names, and in
particular every name of the temporary generator's shape present afterwards
was already present before the batch ran — every generated temporary name was
reused later in the same batch. -/
theorem claim_C4_no_temp_remains (cfg : RenCfg) (files disk' : List String) (log : RenLog)
    (hstep : 1 ≤ cfg.step) (hnd : files.Nodup)
    (hok : runDir cfg files = .ok (disk', log)) :
    (∀ x ∈ disk', x ∈ files ∨ x ∈ targetsOf cfg (batchOf cfg.extensions files)) ∧
    (∀ x ∈ disk', IsTmp x → x ∈ files) := by
  obtain ⟨-, hm⟩ := runDir_characterize cfg files hstep hnd disk' log hok
  have hmem : ∀ x ∈ disk',
      x ∈ (sortNatural files).filter (fun f => !(endswithAny cfg.extensions f)) ∨
      x ∈ targetsOf cfg (batchOf cfg.extensions files) := by
    intro x hx
    have h1 : x ∈ (disk' : Multiset String) := Multiset.mem_coe.mpr hx
    rw [hm] at h1
    simpa [Multiset.mem_add, Multiset.mem_coe] using h1
  have hof : ∀ x ∈ (sortNatural files).filter (fun f => !(endswithAny cfg.extensions f)),
      x ∈ files := by
    intro x hx
    exact (List.perm_insertionSort natLE files).mem_iff.mp (List.mem_filter.mp hx).1
  refine ⟨?_, ?_⟩
  · intro x hx
    rcases hmem x hx with h | h
    · exact Or.inl (hof x h)
    · exact Or.inr h
  · intro x hx htmp
    rcases hmem x hx with h | h
    · exact hof x h
    · exfalso
      obtain ⟨k, hk, rfl⟩ := (mem_targetsOf cfg _ x).mp h
      exact not_isTmp_dstOf cfg k _ htmp

/-- Witness for claim C4: the displacement run over `["000.jpg", "001.jpg"]`
ends with `["002.jpg", "001.jpg"]` — the generated `tmp.jpg` is gone. -/
theorem claim_C4_witness :
    (∀ x ∈ ["002.jpg", "001.jpg"], x ∈ ["000.jpg", "001.jpg"] ∨
      x ∈ targetsOf ⟨1, 1, 3, [".jpg"]⟩ (batchOf [".jpg"] ["000.jpg", "001.jpg"])) ∧
    (∀ x ∈ ["002.jpg", "001.jpg"], IsTmp x → x ∈ ["000.jpg", "001.jpg"]) :=
  claim_C4_no_temp_remains ⟨1, 1, 3, [".jpg"]⟩ ["000.jpg", "001.jpg"] ["002.jpg", "001.jpg"]
    [("001.jpg", "tmp.jpg"), ("000.jpg", "001.jpg"), ("tmp.jpg", "002.jpg")]
    (by decide) (by decide) (by rfl)

/-! ### Order properties of the natural-sort comparison -/

theorem charListLtB_asymm : ∀ a b : List Char, charListLtB a b = true → charListLtB b a = false := by
  intro a
  induction a with
  | nil =>
    intro b h
    cases b with
    | nil => simp [charListLtB] at h
    | cons y ys => rfl
  | cons x xs ih =>
    intro b h
    cases b with
    | nil => simp [charListLtB] at h
    | cons y ys =>
      simp only [charListLtB] at h ⊢
      by_cases hxy : x < y
      · rw [if_neg (fun hyx => lt_asymm hxy hyx), if_pos hxy]
      · by_cases hyx : y < x
        · rw [if_neg hxy, if_pos hyx] at h
          simp at h
        · rw [if_neg hxy, if_neg hyx] at h
          rw [if_neg hyx, if_neg hxy]
          exact ih ys h

theorem charListLtB_conn : ∀ a b : List Char, charListLtB a b = false → charListLtB b a = false →
    a = b := by
  intro a
  induction a with
  | nil =>
    intro b h1 h2
    cases b with
    | nil => rfl
    | cons y ys => simp [charListLtB] at h1
  | cons x xs ih =>
    intro b h1 h2
    cases b with
    | nil => simp [charListLtB] at h2
    | cons y ys =>
      simp only [charListLtB] at h1 h2
      by_cases hxy : x < y
      · rw [if_pos hxy] at h1
        simp at h1
      · by_cases hyx : y < x
        · rw [if_pos hyx] at h2
          simp at h2
        · have hx : x = y := le_antisymm (not_lt.mp hyx) (not_lt.mp hxy)
          rw [if_neg hxy, if_neg hyx] at h1
          rw [if_neg hyx, if_neg hxy] at h2
          rw [hx, ih ys h1 h2]

theorem charListLtB_trans : ∀ a b c : List Char, charListLtB a b = true → charListLtB b c = true →
    charListLtB a c = true := by
  intro a
  induction a with
  | nil =>
    intro b c h1 h2
    cases c with
    | nil =>
      cases b with
      | nil => simp [charListLtB] at h1
      | cons y ys => simp [charListLtB] at h2
    | cons z zs => rfl
  | cons x xs ih =>
    intro b c h1 h2
    cases b with
    | nil => simp [charListLtB] at h1
    | cons y ys =>
      cases c with
      | nil => simp [charListLtB] at h2
      | cons z zs =>
        simp only [charListLtB] at h1 h2 ⊢
        by_cases hxy : x < y
        · by_cases hyz : y < z
          · rw [if_pos (lt_trans hxy hyz)]
          · by_cases hzy : z < y
            · rw [if_neg hyz, if_pos hzy] at h2
              simp at h2
            · have hyzeq : y = z := le_antisymm (not_lt.mp hzy) (not_lt.mp hyz)
              rw [if_pos (hyzeq ▸ hxy)]
        · by_cases hyx : y < x
          · rw [if_neg hxy, if_pos hyx] at h1
            simp at h1
          · have hxyeq : x = y := le_antisymm (not_lt.mp hyx) (not_lt.mp hxy)
            rw [if_neg hxy, if_neg hyx] at h1
            by_cases hyz : y < z
            · rw [if_pos (hxyeq ▸ hyz)]
            · by_cases hzy : z < y
              · rw [if_neg hyz, if_pos hzy] at h2
                simp at h2
              · have hyzeq : y = z := le_antisymm (not_lt.mp hzy) (not_lt.mp hyz)
                have hxzeq : x = z := hxyeq.trans hyzeq
                rw [if_neg (hxzeq ▸ (hxyeq ▸ hxy)), if_neg (hxzeq ▸ (hxyeq ▸ hyx))]
                rw [if_neg hyz, if_neg hzy] at h2
                exact ih ys zs h1 h2

theorem pieceLtB_asymm (a b : Piece) : pieceLtB a b = true → pieceLtB b a = false := by
  cases a with
  | text s =>
    cases b with
    | text t => exact charListLtB_asymm s.data t.data
    | num n => intro _; rfl
  | num m =>
    cases b with
    | text t => intro h; simp [pieceLtB] at h
    | num n =>
      intro h
      simp only [pieceLtB, decide_eq_true_eq] at h
      simp only [pieceLtB, decide_eq_false_iff_not]
      omega

theorem pieceLtB_conn (a b : Piece) : pieceLtB a b = false → pieceLtB b a = false → a = b := by
  cases a with
  | text s =>
    cases b with
    | text t =>
      intro h1 h2
      simp only [pieceLtB] at h1 h2
      have := charListLtB_conn _ _ h1 h2
      have hst : s = t := by
        cases s; cases t
        exact congrArg String.mk this
      rw [hst]
    | num n => intro h1 _; simp [pieceLtB] at h1
  | num m =>
    cases b with
    | text t => intro _ h2; simp [pieceLtB] at h2
    | num n =>
      intro h1 h2
      simp only [pieceLtB, decide_eq_false_iff_not] at h1 h2
      have : m = n := by omega
      rw [this]

theorem pieceLtB_trans (a b c : Piece) : pieceLtB a b = true → pieceLtB b c = true →
    pieceLtB a c = true := by
  cases a with
  | text s =>
    cases b with
    | text t =>
      cases c with
      | text u => exact charListLtB_trans s.data t.data u.data
      | num n => intro _ _; rfl
    | num n =>
      cases c with
      | text u => intro _ h2; simp [pieceLtB] at h2
      | num k => intro _ _; rfl
  | num m =>
    cases b with
    | text t => intro h1 _; simp [pieceLtB] at h1
    | num n =>
      cases c with
      | text u => intro _ h2; simp [pieceLtB] at h2
      | num k =>
        simp only [pieceLtB, decide_eq_true_eq]
        omega

theorem keyLeB_total : ∀ k₁ k₂ : List Piece, keyLeB k₁ k₂ = true ∨ keyLeB k₂ k₁ = true := by
  intro k₁
  induction k₁ with
  | nil => intro k₂; left; rfl
  | cons a as ih =>
    intro k₂
    cases k₂ with
    | nil => right; rfl
    | cons b bs =>
      simp only [keyLeB]
      by_cases hab : pieceLtB a b = true
      · left; rw [if_pos hab]
      · by_cases hba : pieceLtB b a = true
        · right; rw [if_pos hba]
        · rcases ih bs with h | h
          · left
            rw [if_neg hab, if_neg hba]
            exact h
          · right
            rw [if_neg hba, if_neg hab]
            exact h

theorem keyLeB_antisymm : ∀ k₁ k₂ : List Piece, keyLeB k₁ k₂ = true → keyLeB k₂ k₁ = true →
    k₁ = k₂ := by
  intro k₁
  induction k₁ with
  | nil =>
    intro k₂ h1 h2
    cases k₂ with
    | nil => rfl
    | cons b bs => simp [keyLeB] at h2
  | cons a as ih =>
    intro k₂ h1 h2
    cases k₂ with
    | nil => simp [keyLeB] at h1
    | cons b bs =>
      simp only [keyLeB] at h1 h2
      by_cases hab : pieceLtB a b = true
      · rw [if_neg (by rw [pieceLtB_asymm a b hab]; simp), if_pos hab] at h2
        simp at h2
      · by_cases hba : pieceLtB b a = true
        · rw [if_neg (by rw [pieceLtB_asymm b a hba]; simp), if_pos hba] at h1
          simp at h1
        · have heq : a = b := pieceLtB_conn a b (by simpa using hab) (by simpa using hba)
          rw [if_neg hab, if_neg hba] at h1
          rw [if_neg hba, if_neg hab] at h2
          rw [heq, ih bs h1 h2]

theorem keyLeB_trans : ∀ k₁ k₂ k₃ : List Piece, keyLeB k₁ k₂ = true → keyLeB k₂ k₃ = true →
    keyLeB k₁ k₃ = true := by
  intro k₁
  induction k₁ with
  | nil => intro k₂ k₃ _ _; rfl
  | cons a as ih =>
    intro k₂ k₃ h1 h2
    cases k₂ with
    | nil => simp [keyLeB] at h1
    | cons b bs =>
      cases k₃ with
      | nil => simp [keyLeB] at h2
      | cons c cs =>
        simp only [keyLeB] at h1 h2 ⊢
        by_cases hab : pieceLtB a b = true
        · by_cases hbc : pieceLtB b c = true
          · rw [if_pos (pieceLtB_trans a b c hab hbc)]
          · by_cases hcb : pieceLtB c b = true
            · rw [if_neg hbc, if_pos hcb] at h2
              simp at h2
            · have heq : b = c := pieceLtB_conn b c (by simpa using hbc) (by simpa using hcb)
              rw [if_pos (heq ▸ hab)]
        · by_cases hba : pieceLtB b a = true
          · rw [if_neg hab, if_pos hba] at h1
            simp at h1
          · have heq : a = b := pieceLtB_conn a b (by simpa using hab) (by simpa using hba)
            cases heq
            rw [if_neg hab, if_neg hba] at h1
            by_cases hac : pieceLtB a c = true
            · rw [if_pos hac]
            · by_cases hca : pieceLtB c a = true
              · rw [if_neg hac, if_pos hca] at h2
                simp at h2
              · rw [if_neg hac, if_neg hca] at h2
                rw [if_neg hac, if_neg hca]
                exact ih bs cs h1 h2

instance : IsTotal String natLE := ⟨fun a b => keyLeB_total (natKey a) (natKey b)⟩

instance : IsTrans String natLE :=
  ⟨fun a b c h1 h2 => keyLeB_trans (natKey a) (natKey b) (natKey c) h1 h2⟩

/-- The strict-or-equal companion of the natural-sort order, used to pin down
the unique sorted arrangement of a list of pairwise key-distinct names. -/
def natLTE (a b : String) : Prop := keyLeB (natKey b) (natKey a) = false ∨ a = b

instance : IsAntisymm String natLTE := by
  constructor
  intro a b h1 h2
  rcases h1 with h1 | h1
  · rcases h2 with h2 | h2
    · rcases keyLeB_total (natKey a) (natKey b) with h | h
      · rw [h2] at h
        simp at h
      · rw [h1] at h
        simp at h
    · exact h2.symm
  · exact h1

/-! ### Natural-sort keys of destination names -/

theorem natSplitF_digit_prefix (f : Nat) (pre e : List Char) (hpre : pre ≠ [])
    (hdig : ∀ c ∈ pre, c.isDigit = true) (he : ExtFormL e) :
    natSplitF (f + 1) (pre ++ e) = .text "" :: .num (ofDecL pre) :: natSplitF f e := by
  obtain ⟨c, cs, rfl⟩ := List.exists_cons_of_ne_nil hpre
  have hc : c.isDigit = true := hdig c (List.mem_cons_self c cs)
  have hcsdig : ∀ x ∈ cs ++ e, True := fun _ _ => trivial
  have htw : ((c :: (cs ++ e)).takeWhile fun x => !x.isDigit) = [] := by
    simp [List.takeWhile_cons, hc]
  have hdw : ((c :: (cs ++ e)).dropWhile fun x => !x.isDigit) = c :: (cs ++ e) := by
    simp [List.dropWhile_cons, hc]
  have htd : ((c :: (cs ++ e)).takeWhile Char.isDigit) = (c :: cs) := by
    have : (c :: cs) ++ e = c :: (cs ++ e) := by simp
    rw [← this, takeWhile_append_all Char.isDigit (c :: cs) e hdig,
      extForm_takeWhile_isDigit he, List.append_nil]
  have hdd : ((c :: (cs ++ e)).dropWhile Char.isDigit) = e := by
    have : (c :: cs) ++ e = c :: (cs ++ e) := by simp
    rw [← this, dropWhile_append_all Char.isDigit (c :: cs) e hdig,
      extForm_dropWhile_isDigit he]
  simp only [List.cons_append, List.append_eq, natSplitF]
  rw [htw, hdw]
  simp only [List.isEmpty_cons, Bool.false_eq_true, if_false]
  rw [htd, hdd]

theorem natKey_targetName (j d : Nat) (e : String) (he : ExtFormL e.data) :
    ∃ rest, natKey (targetName j d e) = .text "" :: .num j :: rest := by
  have hdata : (targetName j d e).data = padC d j ++ e.data := targetName_data j d e
  have hpos : 0 < (targetName j d e).data.length := by
    rw [hdata]
    rcases List.exists_cons_of_ne_nil (padC_ne_nil d j) with ⟨c, cs, hp⟩
    rw [hp]
    simp
  obtain ⟨f, hf⟩ : ∃ f, (targetName j d e).data.length = f + 1 :=
    ⟨(targetName j d e).data.length - 1, by omega⟩
  unfold natKey
  rw [hf, hdata,
    natSplitF_digit_prefix f (padC d j) e.data (padC_ne_nil d j) (padC_digits d j) he,
    ofDecL_padC]
  exact ⟨_, rfl⟩

theorem keyLeB_num_false (j₁ j₂ : Nat) (r1 r2 : List Piece) (h : j₁ < j₂) :
    keyLeB (.text "" :: .num j₂ :: r2) (.text "" :: .num j₁ :: r1) = false := by
  have h0 : pieceLtB (.text "") (.text "") = false := rfl
  have h1 : pieceLtB (.num j₂) (.num j₁) = false := by
    simp only [pieceLtB, decide_eq_false_iff_not]
    omega
  have h2 : pieceLtB (.num j₁) (.num j₂) = true := by
    simp only [pieceLtB, decide_eq_true_eq]
    omega
  simp only [keyLeB, h0, h1, h2]
  simp

theorem keyLeB_dstOf_false (cfg : RenCfg) (p q : Nat) (a b : String)
    (hpq : p < q) (hstep : 1 ≤ cfg.step) :
    keyLeB (natKey (dstOf cfg q b)) (natKey (dstOf cfg p a)) = false := by
  obtain ⟨r1, h1⟩ := natKey_targetName (cfg.initial_number + p * cfg.step) cfg.digit
    (splitext a).2 (splitext_extForm a)
  obtain ⟨r2, h2⟩ := natKey_targetName (cfg.initial_number + q * cfg.step) cfg.digit
    (splitext b).2 (splitext_extForm b)
  have hj : cfg.initial_number + p * cfg.step < cfg.initial_number + q * cfg.step := by
    have h3 : (p + 1) * cfg.step ≤ q * cfg.step := Nat.mul_le_mul_right _ (by omega)
    have h4 : p * cfg.step + cfg.step = (p + 1) * cfg.step := by ring
    omega
  unfold dstOf
  rw [h2, h1]
  exact keyLeB_num_false _ _ r1 r2 hj

theorem natKey_dstOf_ne (cfg : RenCfg) (p q : Nat) (a b : String)
    (hpq : p ≠ q) (hstep : 1 ≤ cfg.step) :
    natKey (dstOf cfg p a) ≠ natKey (dstOf cfg q b) := by
  obtain ⟨r1, h1⟩ := natKey_targetName (cfg.initial_number + p * cfg.step) cfg.digit
    (splitext a).2 (splitext_extForm a)
  obtain ⟨r2, h2⟩ := natKey_targetName (cfg.initial_number + q * cfg.step) cfg.digit
    (splitext b).2 (splitext_extForm b)
  unfold dstOf
  rw [h1, h2]
  intro h
  have h3 := (List.cons.injEq _ _ _ _).mp h
  have h4 := (List.cons.injEq _ _ _ _).mp h3.2
  have h5 : cfg.initial_number + p * cfg.step = cfg.initial_number + q * cfg.step := by
    have := h4.1
    simpa using this
  have h6 : p * cfg.step = q * cfg.step := by omega
  exact hpq (Nat.eq_of_mul_eq_mul_right (by omega) h6)

theorem targets_sorted_natLTE (cfg : RenCfg) (batch : List String) (hstep : 1 ≤ cfg.step) :
    List.Pairwise natLTE (targetsOf cfg batch) := by
  unfold targetsOf
  rw [List.pairwise_map]
  refine (List.pairwise_lt_range _).imp ?_
  intro p q hpq
  exact Or.inl (keyLeB_dstOf_false cfg p q _ _ hpq hstep)

theorem targets_keys_nodup (cfg : RenCfg) (batch : List String) (hstep : 1 ≤ cfg.step) :
    ((targetsOf cfg batch).map natKey).Nodup := by
  unfold targetsOf
  rw [List.map_map]
  unfold List.Nodup
  rw [List.pairwise_map]
  refine (List.pairwise_lt_range _).imp ?_
  intro p q hpq
  exact natKey_dstOf_ne cfg p q _ _ (by omega) hstep

theorem sorted_natLTE_of_le (l : List String) (hs : List.Pairwise natLE l)
    (hk : (l.map natKey).Nodup) : List.Pairwise natLTE l := by
  have hne : l.Pairwise (fun a b => natKey a ≠ natKey b) := by
    have : (l.map natKey).Pairwise (· ≠ ·) := hk
    rwa [List.pairwise_map] at this
  refine (hs.and hne).imp ?_
  rintro a b ⟨hle, hne2⟩
  left
  by_contra hcon
  rw [Bool.not_eq_false] at hcon
  exact hne2 (keyLeB_antisymm _ _ hle hcon)

theorem dstOf_idem (cfg : RenCfg) (p : Nat) (s : String) :
    dstOf cfg p (dstOf cfg p s) = dstOf cfg p s := by
  show targetName _ _ (splitext (dstOf cfg p s)).2 = _
  rw [splitext_snd_dstOf]
  rfl

theorem runBatchGo_all_noop (cfg : RenCfg) : ∀ (fuel : Nat) (fns disk : List String) (p : Nat),
    (∀ k, p ≤ k → k < fns.length → fns.getD k "" = dstOf cfg k (fns.getD k "")) →
    runBatchGo cfg fuel fns disk p = .ok (disk, []) := by
  intro fuel
  induction fuel with
  | zero => intro fns disk p _; rfl
  | succ fuel ih =>
    intro fns disk p h
    by_cases hp : p < fns.length
    · have hget : fns.get? p = some (fns.getD p "") := by
        rw [List.get?_eq_getElem?, List.getElem?_eq_getElem hp, List.getD_eq_getElem fns _ hp]
      rw [runBatchGo_noop_eq cfg fuel fns disk p _ hget (h p le_rfl hp)]
      exact ih fns disk (p + 1) (fun k hk1 hk2 => h k (by omega) hk2)
    · have hnone : fns.get? p = none := by
        rw [List.get?_eq_getElem?]
        exact List.getElem?_eq_none (by omega)
      simp only [runBatchGo, hnone]

/-- Claim C3 (counterexample to the claim as stated): the second run is not
always change-free. A directory holding the bare dotfile `.jpg` and `b.jpg`:
`os.path.splitext('.jpg')` yields an empty extension, so the first run renames
`.jpg` to the extensionless `001`, which no longer matches the extension
filter; the second run therefore sees only `002.jpg`, assigns it `001.jpg`,
and performs a rename — the filesystem changes (`001.jpg` appears). -/
theorem claim_C3_counterexample :
    runDir ⟨1, 1, 3, [".jpg"]⟩ [".jpg", "b.jpg"] =
      .ok (["002.jpg", "001"], [(".jpg", "001"), ("b.jpg", "002.jpg")]) ∧
    runDir ⟨1, 1, 3, [".jpg"]⟩ ["002.jpg", "001"] =
      .ok (["001.jpg", "001"], [("002.jpg", "001.jpg")]) ∧
    ("001.jpg" ∈ (["001.jpg", "001"] : List String) ∧
      "001.jpg" ∉ (["002.jpg", "001"] : List String)) :=
  ⟨rfl, rfl, by decide⟩

/-- Claim C3 (amended): running the rename twice with the same configuration
produces no filesystem change on the second run — no rename is performed and
the disk is returned unchanged — provided every destination name computed for
the first run's batch still matches a configured extension (the claim as
stated fails when a matching file, such as a bare dotfile `.jpg`, has an
empty `splitext` extension and its destination drops out of the batch). -/
theorem claim_C3_idempotent (cfg : RenCfg) (files disk₁ : List String) (log₁ : RenLog)
    (hstep : 1 ≤ cfg.step) (hnd : files.Nodup)
    (hmatch : ∀ t ∈ targetsOf cfg (batchOf cfg.extensions files),
      endswithAny cfg.extensions t = true)
    (hok : runDir cfg files = .ok (disk₁, log₁)) :
    runDir cfg disk₁ = .ok (disk₁, []) := by
  obtain ⟨hnd1, hm⟩ := runDir_characterize cfg files hstep hnd disk₁ log₁ hok
  have hdperm : List.Perm disk₁
      ((sortNatural files).filter (fun f => !(endswithAny cfg.extensions f)) ++
        targetsOf cfg (batchOf cfg.extensions files)) := by
    have h1 := hm
    rw [Multiset.coe_add] at h1
    exact Multiset.coe_eq_coe.mp h1
  have hb2perm : List.Perm (batchOf cfg.extensions disk₁)
      (targetsOf cfg (batchOf cfg.extensions files)) := by
    have s1 : List.Perm (sortNatural disk₁) disk₁ := List.perm_insertionSort natLE disk₁
    have s2 : List.Perm (batchOf cfg.extensions disk₁)
        (disk₁.filter (fun f => endswithAny cfg.extensions f)) := s1.filter _
    have s3 := hdperm.filter (fun f => endswithAny cfg.extensions f)
    rw [List.filter_append] at s3
    have s5 : ((sortNatural files).filter
        (fun f => !(endswithAny cfg.extensions f))).filter
          (fun f => endswithAny cfg.extensions f) = [] := by
      rw [List.filter_eq_nil_iff]
      intro a ha
      have h2 := (List.mem_filter.mp ha).2
      simp only [Bool.not_eq_true'] at h2
      simp [h2]
    have s6 : (targetsOf cfg (batchOf cfg.extensions files)).filter
        (fun f => endswithAny cfg.extensions f) =
        targetsOf cfg (batchOf cfg.extensions files) := List.filter_eq_self.mpr hmatch
    rw [s5, s6, List.nil_append] at s3
    exact s2.trans s3
  have hb2eq : batchOf cfg.extensions disk₁ = targetsOf cfg (batchOf cfg.extensions files) := by
    have hs1 : List.Pairwise natLE (sortNatural disk₁) := List.sorted_insertionSort natLE disk₁
    have hs2 : List.Pairwise natLE (batchOf cfg.extensions disk₁) := hs1.filter _
    have hknd : ((batchOf cfg.extensions disk₁).map natKey).Nodup :=
      ((hb2perm.map natKey).nodup_iff).mpr (targets_keys_nodup cfg _ hstep)
    have hs3 : List.Pairwise natLTE (batchOf cfg.extensions disk₁) :=
      sorted_natLTE_of_le _ hs2 hknd
    have hs4 : List.Pairwise natLTE (targetsOf cfg (batchOf cfg.extensions files)) :=
      targets_sorted_natLTE cfg _ hstep
    exact List.eq_of_perm_of_sorted hb2perm hs3 hs4
  simp only [runDir]
  by_cases hbe : (batchOf cfg.extensions disk₁).isEmpty = true
  · rw [if_pos hbe]
  · rw [if_neg hbe]
    show runBatchGo cfg (batchOf cfg.extensions disk₁).length
      (batchOf cfg.extensions disk₁) disk₁ 0 = _
    refine runBatchGo_all_noop cfg _ _ disk₁ 0 ?_
    intro k hk0 hkl
    rw [hb2eq] at hkl ⊢
    rw [List.getD_eq_getElem _ _ hkl, targetsOf_getElem cfg _ k hkl, dstOf_idem]

/-- Witness for the amended claim C3: after renaming `["a.jpg", "b.jpg"]` to
`["001.jpg", "002.jpg"]`, a second run changes nothing and logs no rename. -/
theorem claim_C3_witness :
    runDir ⟨1, 1, 3, [".jpg"]⟩ ["002.jpg", "001.jpg"] = .ok (["002.jpg", "001.jpg"], []) :=
  claim_C3_idempotent ⟨1, 1, 3, [".jpg"]⟩ ["a.jpg", "b.jpg"] ["002.jpg", "001.jpg"]
    [("a.jpg", "001.jpg"), ("b.jpg", "002.jpg")] (by decide) (by decide) (by decide) (by rfl)
